import Mathlib

/-!
Verification of the json-formatter core: a shallow embedding of the
recursive-descent parser (`src/parser.rs`), the data model (`src/ast.rs`)
and the structural formatter (`src/formatter.rs`), together with theorems
about the claims of the specification.

Strings from the Rust source are modelled as `List Char`.  The parser's
recursive functions take an explicit fuel argument so that every
definition is structurally recursive and kernel-computable; fuel
sufficiency for the canonical entry point is established by the lemmas
below, and the invariant lemmas hold for every fuel value.
-/

namespace JsonFmt

/-- Key wraps the character sequence of a quoted object key (ast.rs `Key`). -/
structure Key where
  val : List Char
deriving DecidableEq

/-- The Value tree of ast.rs: String / Number / Object / Array. -/
inductive Value where
  | string (s : List Char)
  | number (n : List Char)
  | object (pairs : List (Key × Value))
  | array (values : List Value)

/-- A pair of an object, ast.rs `Pair { key, value }`. -/
abbrev Pair := Key × Value

/-! ## Formatter (formatter.rs) -/

/-- Formatter state: the single depth counter. -/
structure Formatter where
  depth : Nat
deriving DecidableEq

/-- `Formatter::new()`. -/
def Formatter.new : Formatter := ⟨0⟩

/-- `" ".repeat(4).repeat(self.depth)`. -/
def Formatter.indent (f : Formatter) : List Char :=
  (List.replicate f.depth (List.replicate 4 ' ')).flatten

/-- `format!("\"{}\"", s)`. -/
def Formatter.formatString (_f : Formatter) (s : List Char) : List Char :=
  '"' :: s ++ ['"']

/-- `format_number` returns the literal unchanged. -/
def Formatter.formatNumber (_f : Formatter) (n : List Char) : List Char := n

mutual

/-- `Formatter::format`, with the object and array branches of
`format_object` / `format_array` written inline so that the mutual
recursion is structural.  The wrappers `Formatter.formatObject` and
`Formatter.formatArray` below restate the two branches and agree with
this definition by `rfl`. -/
def Formatter.format (f : Formatter) : Value → List Char × Formatter
  | .string s => (f.formatString s, f)
  | .number n => (f.formatNumber n, f)
  | .object pairs =>
    if pairs.isEmpty then (['\x7b', '\x7d'], f)
    else
      let f1 : Formatter := ⟨f.depth + 1⟩
      let (items, f2) := Formatter.formatPairs f1 pairs
      let f3 : Formatter := ⟨f2.depth - 1⟩
      ('\x7b' :: '\n' :: (List.intercalate [',', '\n'] items) ++
        '\n' :: f3.indent ++ ['\x7d'], f3)
  | .array vs =>
    if vs.isEmpty then (['[', ']'], f)
    else
      let f1 : Formatter := ⟨f.depth + 1⟩
      let (items, f2) := Formatter.formatValues f1 vs
      let f3 : Formatter := ⟨f2.depth - 1⟩
      ('[' :: '\n' :: (List.intercalate [',', '\n'] items) ++
        '\n' :: f3.indent ++ [']'], f3)

/-- The per-pair rendering of `format_object`'s map: indent, re-quoted key,
colon-space, recursively formatted value; the formatter state is threaded
left to right exactly as the Rust closure mutates `self`. -/
def Formatter.formatPairs (f : Formatter) : List Pair → List (List Char) × Formatter
  | [] => ([], f)
  | pr :: rest =>
    let ind := f.indent
    let (s, f1) := Formatter.format f pr.2
    let (items, f2) := Formatter.formatPairs f1 rest
    ((ind ++ '"' :: pr.1.val ++ '"' :: ':' :: ' ' :: s) :: items, f2)

/-- The per-element rendering of `format_array`'s map. -/
def Formatter.formatValues (f : Formatter) : List Value → List (List Char) × Formatter
  | [] => ([], f)
  | v :: rest =>
    let ind := f.indent
    let (s, f1) := Formatter.format f v
    let (items, f2) := Formatter.formatValues f1 rest
    ((ind ++ s) :: items, f2)

end

/-- `Formatter::format_object`, as in formatter.rs. -/
def Formatter.formatObject (f : Formatter) (pairs : List Pair) : List Char × Formatter :=
  if pairs.isEmpty then (['\x7b', '\x7d'], f)
  else
    let f1 : Formatter := ⟨f.depth + 1⟩
    let (items, f2) := Formatter.formatPairs f1 pairs
    let f3 : Formatter := ⟨f2.depth - 1⟩
    ('\x7b' :: '\n' :: (List.intercalate [',', '\n'] items) ++
      '\n' :: f3.indent ++ ['\x7d'], f3)

/-- `Formatter::format_array`, as in formatter.rs. -/
def Formatter.formatArray (f : Formatter) (vs : List Value) : List Char × Formatter :=
  if vs.isEmpty then (['[', ']'], f)
  else
    let f1 : Formatter := ⟨f.depth + 1⟩
    let (items, f2) := Formatter.formatValues f1 vs
    let f3 : Formatter := ⟨f2.depth - 1⟩
    ('[' :: '\n' :: (List.intercalate [',', '\n'] items) ++
      '\n' :: f3.indent ++ [']'], f3)

theorem Formatter.format_object_eq (f : Formatter) (pairs : List Pair) :
    Formatter.format f (.object pairs) = Formatter.formatObject f pairs := rfl

theorem Formatter.format_array_eq (f : Formatter) (vs : List Value) :
    Formatter.format f (.array vs) = Formatter.formatArray f vs := rfl

/-- Top-level formatting as the driver uses it: `Formatter::new().format(v)`. -/
def formatTop (v : Value) : List Char := (Formatter.format Formatter.new v).1

/-! ## Line splitting (`BufRead::lines`) -/

/-- Drop a single trailing carriage return, as `read_line` does for a
line terminated by `\r\n`. -/
def stripCR (l : List Char) : List Char :=
  match l.getLast? with
  | some '\r' => l.dropLast
  | _ => l

/-- Accumulating splitter behind `linesOf`; `acc` holds the current line
reversed. -/
def linesAux : List Char → List Char → List (List Char)
  | acc, [] => if acc.isEmpty then [] else [acc.reverse]
  | acc, c :: rest =>
    if c = '\n' then stripCR acc.reverse :: linesAux [] rest
    else linesAux (c :: acc) rest

/-- The line sequence `BufRead::lines` yields for a character stream:
`\n`-terminated lines without their terminator (and without a preceding
`\r`), plus a final unterminated line when nonempty. -/
def linesOf (s : List Char) : List (List Char) := linesAux [] s

/-! ## Parser state (parser.rs) -/

/-- Positioned parse error: message and 1-based line number. -/
structure ParseError where
  message : String
  line_number : Nat
deriving DecidableEq

/-- Parser state: offset in the current line, the remaining lines of the
`Lines` iterator, the materialized current line, and the 1-based line
number. -/
structure Parser where
  pos : Nat
  lines : List (List Char)
  line : Option (List Char)
  line_number : Nat
deriving DecidableEq

/-- `Parser::new`: fetch the first line of the iterator. -/
def Parser.new (ls : List (List Char)) : Parser :=
  { pos := 0, lines := ls.tail, line := ls.head?, line_number := 1 }

/-- The `while` loop of `Parser::succ`: fetch lines (counting each fetch
in `line_number`) until a line with an unread character is current or the
iterator is exhausted. -/
def Parser.fetchLoop : List (List Char) → Nat → Option (List Char) × List (List Char) × Nat
  | [], n => (none, [], n + 1)
  | l :: rest, n => if 0 < l.length then (some l, rest, n + 1) else Parser.fetchLoop rest (n + 1)

/-- `Parser::succ`: advance one position, rolling over to the next
nonempty line when the current line is exhausted. -/
def Parser.succ (p : Parser) : Parser :=
  match p.line with
  | none => { p with pos := p.pos + 1 }
  | some l =>
    if p.pos + 1 < l.length then { p with pos := p.pos + 1 }
    else
      let f := Parser.fetchLoop p.lines p.line_number
      { pos := 0, lines := f.2.1, line := f.1, line_number := f.2.2 }

/-- `Parser::get_cur_char`. -/
def Parser.getCurChar (p : Parser) : Option Char :=
  p.line.bind fun l => l[p.pos]?

/-- `Parser::cur_char_is`. -/
def Parser.curCharIs (p : Parser) (ch : Char) : Bool :=
  match p.getCurChar with
  | some c => c == ch
  | none => false

/-- `Parser::expect_char`. -/
def Parser.expectChar (p : Parser) (expect : Char) : Except ParseError Unit :=
  match p.getCurChar with
  | none => .error ⟨"expected `" ++ expect.toString ++ "`", p.line_number⟩
  | some actual =>
    if expect = actual then .ok ()
    else .error ⟨"expected: `" ++ expect.toString ++ "`, found: `" ++ actual.toString ++ "`",
                 p.line_number⟩

/-- `Parser::consume_char`. -/
def Parser.consumeChar (p : Parser) (ch : Char) : Except ParseError Parser :=
  match p.expectChar ch with
  | .error e => .error e
  | .ok _ => .ok p.succ

/-- The Unicode `White_Space` property used by Rust's
`char::is_whitespace`. -/
def isRustWhitespace (c : Char) : Bool :=
  c == ' ' || c == '\t' || c == '\n' || c == '\x0B' || c == '\x0C' || c == '\r' ||
  c == '\u0085' || c == '\u00A0' || c == '\u1680' ||
  c == '\u2000' || c == '\u2001' || c == '\u2002' || c == '\u2003' || c == '\u2004' ||
  c == '\u2005' || c == '\u2006' || c == '\u2007' || c == '\u2008' || c == '\u2009' ||
  c == '\u200A' || c == '\u2028' || c == '\u2029' || c == '\u202F' || c == '\u205F' ||
  c == '\u3000'

/-- `Parser::skip_whitespace` (fueled loop). -/
def Parser.skipWhitespace : Nat → Parser → Parser
  | 0, p => p
  | fuel + 1, p =>
    match p.getCurChar with
    | some ch => if isRustWhitespace ch then Parser.skipWhitespace fuel p.succ else p
    | none => p

/-- The accumulation loop of `parse_inner_string`: push characters until a
quote is current or input ends. -/
def Parser.innerStringLoop : Nat → Parser → List Char → List Char × Parser
  | 0, p, acc => (acc, p)
  | fuel + 1, p, acc =>
    match p.getCurChar with
    | some ch =>
      if ch = '"' then (acc, p)
      else Parser.innerStringLoop fuel p.succ (acc ++ [ch])
    | none => (acc, p)

/-- `Parser::parse_inner_string`. -/
def Parser.parseInnerString (fuel : Nat) (p : Parser) : Except ParseError (List Char × Parser) :=
  match p.consumeChar '"' with
  | .error e => .error e
  | .ok p1 =>
    match Parser.innerStringLoop fuel p1 [] with
    | (s, p2) =>
      match p2.consumeChar '"' with
      | .error e => .error e
      | .ok p3 => .ok (s, p3)

/-- `Parser::parse_string_value`. -/
def Parser.parseStringValue (fuel : Nat) (p : Parser) : Except ParseError (Value × Parser) :=
  match Parser.parseInnerString fuel p with
  | .error e => .error e
  | .ok (s, p1) => .ok (.string s, p1)

/-- `Parser::parse_string_key`. -/
def Parser.parseStringKey (fuel : Nat) (p : Parser) : Except ParseError (Key × Parser) :=
  match Parser.parseInnerString fuel p with
  | .error e => .error e
  | .ok (s, p1) => .ok (⟨s⟩, p1)

/-- The `valid` closure of `parse_number`: ASCII digit or dot. -/
def validNumChar (ch : Char) : Bool := ch.isDigit || ch == '.'

/-- The digit-run loop of `parse_number`. -/
def Parser.numberLoop : Nat → Parser → List Char → List Char × Parser
  | 0, p, acc => (acc, p)
  | fuel + 1, p, acc =>
    match p.getCurChar with
    | some ch =>
      if validNumChar ch then Parser.numberLoop fuel p.succ (acc ++ [ch])
      else (acc, p)
    | none => (acc, p)

/-- `Parser::parse_number`: optional leading minus, then the maximal run
of digits and dots, captured as unvalidated literal text. -/
def Parser.parseNumber (fuel : Nat) (p : Parser) : Except ParseError (Value × Parser) :=
  let start : List Char × Parser :=
    match p.getCurChar with
    | some ch => if ch = '-' then (['-'], p.succ) else ([], p)
    | none => ([], p)
  match Parser.numberLoop fuel start.2 start.1 with
  | (num, p2) => .ok (.number num, p2)

/-- Error used only when fuel runs out; the sufficiency lemmas below show
the canonical entry point never reaches it. -/
def fuelError : ParseError := ⟨"fuel exhausted", 0⟩

mutual

/-- `Parser::parse_value`: skip whitespace and dispatch on the current
character. -/
def Parser.parseValue : Nat → Parser → Except ParseError (Value × Parser)
  | 0, _ => .error fuelError
  | fuel + 1, p =>
    let p1 := Parser.skipWhitespace (fuel + 1) p
    match p1.getCurChar with
    | some '\x7b' => Parser.parseObject fuel p1
    | some '[' => Parser.parseArray fuel p1
    | some '"' => Parser.parseStringValue (fuel + 1) p1
    | some ch =>
      if ch = '-' || ch.isDigit then Parser.parseNumber (fuel + 1) p1
      else .error ⟨"invalid token: `" ++ ch.toString ++ "`", p1.line_number⟩
    | none => .error ⟨"no token found", p1.line_number⟩

/-- `Parser::parse_object`. -/
def Parser.parseObject : Nat → Parser → Except ParseError (Value × Parser)
  | 0, _ => .error fuelError
  | fuel + 1, p =>
    match p.expectChar '\x7b' with
    | .error e => .error e
    | .ok _ =>
      let p1 := Parser.skipWhitespace (fuel + 1) p.succ
      if p1.curCharIs '\x7d' then .ok (.object [], p1.succ)
      else
        match Parser.objectLoop fuel p1 [] with
        | .error e => .error e
        | .ok (pairs, p2) =>
          match p2.expectChar '\x7d' with
          | .error e => .error e
          | .ok _ => .ok (.object pairs, p2.succ)

/-- The pair loop of `parse_object`. -/
def Parser.objectLoop : Nat → Parser → List Pair → Except ParseError (List Pair × Parser)
  | 0, _, _ => .error fuelError
  | fuel + 1, p, acc =>
    let p1 := Parser.skipWhitespace (fuel + 1) p
    match Parser.parseStringKey (fuel + 1) p1 with
    | .error e => .error e
    | .ok (key, p2) =>
      let p3 := Parser.skipWhitespace (fuel + 1) p2
      match p3.consumeChar ':' with
      | .error e => .error e
      | .ok p4 =>
        match Parser.parseValue fuel p4 with
        | .error e => .error e
        | .ok (v, p5) =>
          let p6 := Parser.skipWhitespace (fuel + 1) p5
          match p6.getCurChar with
          | some ',' => Parser.objectLoop fuel p6.succ (acc ++ [(key, v)])
          | some '\x7d' => .ok (acc ++ [(key, v)], p6)
          | some other =>
            .error ⟨"expected: `,` or `\x7d`, found: `" ++ other.toString ++ "`",
                    p6.line_number⟩
          | none => .error ⟨"expected `,` or `\x7d\x7d`", p6.line_number⟩

/-- `Parser::parse_array`. -/
def Parser.parseArray : Nat → Parser → Except ParseError (Value × Parser)
  | 0, _ => .error fuelError
  | fuel + 1, p =>
    match p.consumeChar '[' with
    | .error e => .error e
    | .ok p1 =>
      let p2 := Parser.skipWhitespace (fuel + 1) p1
      if p2.curCharIs ']' then .ok (.array [], p2.succ)
      else
        match Parser.arrayLoop fuel p2 [] with
        | .error e => .error e
        | .ok (vs, p3) =>
          match p3.consumeChar ']' with
          | .error e => .error e
          | .ok p4 => .ok (.array vs, p4)

/-- The element loop of `parse_array`. -/
def Parser.arrayLoop : Nat → Parser → List Value → Except ParseError (List Value × Parser)
  | 0, _, _ => .error fuelError
  | fuel + 1, p, acc =>
    match Parser.parseValue fuel p with
    | .error e => .error e
    | .ok (v, p1) =>
      let p2 := Parser.skipWhitespace (fuel + 1) p1
      match p2.getCurChar with
      | some ',' => Parser.arrayLoop fuel p2.succ (acc ++ [v])
      | some ']' => .ok (acc ++ [v], p2)
      | some other =>
        .error ⟨"expected: `,` or `]`, found: " ++ other.toString, p2.line_number⟩
      | none => .error ⟨"expected `,` or `]`", p2.line_number⟩

end

/-! ## Abstraction of the parser state -/

/-- The characters still to be read, with line boundaries elided: the
unread suffix of the current line followed by the pending lines. -/
def Parser.stream (p : Parser) : List Char :=
  match p.line with
  | none => []
  | some l => l.drop p.pos ++ p.lines.flatten

/-- Normal states: the current line, when present, has an unread
character, and an absent current line means an exhausted iterator.  Every
state reached after at least one `succ` is normal. -/
def Parser.Norm (p : Parser) : Prop :=
  (∀ l, p.line = some l → p.pos < l.length) ∧ (p.line = none → p.lines = [])

/-! ## Canonical entry points -/

/-- Fuel that the sufficiency lemmas show is enough for any input. -/
def fuelFor (p : Parser) : Nat := 3 * p.stream.length + 1

/-- The core boundary `parse`: split the character stream into lines,
build a parser and run `parse_value`. -/
def parse (s : List Char) : Except ParseError (Value × Parser) :=
  Parser.parseValue (fuelFor (Parser.new (linesOf s))) (Parser.new (linesOf s))

/-- The driver's `format` in main.rs: parse, then format the tree. -/
def run (s : List Char) : Except ParseError (List Char) :=
  match parse s with
  | .ok (v, _) => .ok (formatTop v)
  | .error e => .error e

/-! ## Lemmas about the cursor abstraction -/

theorem Parser.fetchLoop_stream (ls : List (List Char)) (n : Nat) :
    ((Parser.fetchLoop ls n).1.getD []) ++ ((Parser.fetchLoop ls n).2.1).flatten = ls.flatten := by
  induction ls generalizing n with
  | nil => simp [Parser.fetchLoop]
  | cons l rest ih =>
    by_cases h : 0 < l.length
    · simp [Parser.fetchLoop, h]
    · have hl : l = [] := List.length_eq_zero.mp (Nat.eq_zero_of_not_pos h)
      simp [Parser.fetchLoop, h, hl, ih]

theorem Parser.fetchLoop_pos {ls : List (List Char)} {n : Nat} {l : List Char}
    (h : (Parser.fetchLoop ls n).1 = some l) : 0 < l.length := by
  induction ls generalizing n with
  | nil => simp [Parser.fetchLoop] at h
  | cons a rest ih =>
    by_cases ha : 0 < a.length
    · simp [Parser.fetchLoop, ha] at h
      exact h ▸ ha
    · simp only [Parser.fetchLoop, if_neg ha] at h
      exact ih h

theorem Parser.fetchLoop_none {ls : List (List Char)} {n : Nat}
    (h : (Parser.fetchLoop ls n).1 = none) : (Parser.fetchLoop ls n).2.1 = [] := by
  induction ls generalizing n with
  | nil => simp [Parser.fetchLoop]
  | cons a rest ih =>
    by_cases ha : 0 < a.length
    · simp [Parser.fetchLoop, ha] at h
    · simp only [Parser.fetchLoop, if_neg ha] at h ⊢
      exact ih h

theorem Parser.fetchLoop_mem_line {ls : List (List Char)} {n : Nat} {l : List Char}
    (h : (Parser.fetchLoop ls n).1 = some l) : l ∈ ls := by
  induction ls generalizing n with
  | nil => simp [Parser.fetchLoop] at h
  | cons a rest ih =>
    by_cases ha : 0 < a.length
    · simp [Parser.fetchLoop, ha] at h
      simp [h]
    · simp only [Parser.fetchLoop, if_neg ha] at h
      exact List.mem_cons_of_mem a (ih h)

theorem Parser.fetchLoop_mem_lines {ls : List (List Char)} {n : Nat} {l : List Char}
    (h : l ∈ (Parser.fetchLoop ls n).2.1) : l ∈ ls := by
  induction ls generalizing n with
  | nil => simp [Parser.fetchLoop] at h
  | cons a rest ih =>
    by_cases ha : 0 < a.length
    · simp [Parser.fetchLoop, ha] at h
      exact List.mem_cons_of_mem a h
    · simp only [Parser.fetchLoop, if_neg ha] at h
      exact List.mem_cons_of_mem a (ih h)

theorem Parser.getCurChar_elim {p : Parser} {c : Char} (h : p.getCurChar = some c) :
    ∃ l, p.line = some l ∧ p.pos < l.length ∧ l[p.pos]? = some c := by
  unfold Parser.getCurChar at h
  cases hl : p.line with
  | none => rw [hl] at h; simp at h
  | some l =>
    rw [hl] at h
    simp only [Option.some_bind] at h
    exact ⟨l, rfl, (List.getElem?_eq_some.mp h).1, h⟩

theorem Parser.cur_head {p : Parser} {c : Char} (h : p.getCurChar = some c) :
    p.stream.head? = some c := by
  obtain ⟨l, hl, hlt, hget⟩ := Parser.getCurChar_elim h
  unfold Parser.stream
  rw [hl]
  simp [List.head?_append, List.head?_drop, hget]

theorem Parser.cur_none_stream {p : Parser} (hN : p.Norm) (h : p.getCurChar = none) :
    p.stream = [] := by
  unfold Parser.stream
  cases hl : p.line with
  | none => simp
  | some l =>
    have hlt := hN.1 l hl
    unfold Parser.getCurChar at h
    rw [hl] at h
    simp only [Option.some_bind] at h
    have := List.getElem?_eq_getElem hlt
    rw [h] at this
    exact absurd this (by simp)

theorem Parser.cur_eq_head {p : Parser} (hN : p.Norm) : p.getCurChar = p.stream.head? := by
  cases h : p.getCurChar with
  | some c => exact (Parser.cur_head h).symm
  | none => rw [Parser.cur_none_stream hN h]; rfl

theorem Parser.stream_some {p : Parser} {l : List Char} (hl : p.line = some l) :
    p.stream = l.drop p.pos ++ p.lines.flatten := by
  unfold Parser.stream
  rw [hl]

theorem Parser.stream_none {p : Parser} (hl : p.line = none) : p.stream = [] := by
  unfold Parser.stream
  rw [hl]

theorem Parser.succ_of_lt {p : Parser} {l : List Char} (hl : p.line = some l)
    (h2 : p.pos + 1 < l.length) : p.succ = { p with pos := p.pos + 1 } := by
  unfold Parser.succ
  rw [hl]
  simp [h2]

theorem Parser.succ_of_ge {p : Parser} {l : List Char} (hl : p.line = some l)
    (h2 : ¬ p.pos + 1 < l.length) :
    p.succ = { pos := 0, lines := (Parser.fetchLoop p.lines p.line_number).2.1,
               line := (Parser.fetchLoop p.lines p.line_number).1,
               line_number := (Parser.fetchLoop p.lines p.line_number).2.2 } := by
  unfold Parser.succ
  rw [hl]
  simp [h2]

theorem Parser.stream_succ {p : Parser} {c : Char} (h : p.getCurChar = some c) :
    p.succ.stream = p.stream.tail := by
  obtain ⟨l, hl, hlt, _⟩ := Parser.getCurChar_elim h
  have hdrop : l.drop p.pos = l[p.pos] :: l.drop (p.pos + 1) := List.drop_eq_getElem_cons hlt
  have htail : p.stream.tail = l.drop (p.pos + 1) ++ p.lines.flatten := by
    rw [Parser.stream_some hl, hdrop]
    rfl
  by_cases h2 : p.pos + 1 < l.length
  · rw [Parser.succ_of_lt hl h2, htail]
    exact Parser.stream_some (p := { p with pos := p.pos + 1 }) hl
  · rw [Parser.succ_of_ge hl h2, htail]
    have hnil : l.drop (p.pos + 1) = [] := List.drop_eq_nil_of_le (Nat.le_of_not_lt h2)
    have hfetch := Parser.fetchLoop_stream p.lines p.line_number
    rw [hnil]
    cases hf1 : (Parser.fetchLoop p.lines p.line_number).1 with
    | none =>
      rw [Parser.stream_none (by rfl)]
      rw [hf1] at hfetch
      have hrest := Parser.fetchLoop_none hf1
      rw [hrest] at hfetch
      simpa using hfetch.symm
    | some l2 =>
      rw [Parser.stream_some (by rfl)]
      rw [hf1] at hfetch
      simpa using hfetch

theorem Parser.norm_succ {p : Parser} {c : Char} (h : p.getCurChar = some c) :
    p.succ.Norm := by
  obtain ⟨l, hl, hlt, _⟩ := Parser.getCurChar_elim h
  by_cases h2 : p.pos + 1 < l.length
  · rw [Parser.succ_of_lt hl h2]
    constructor
    · intro l2 hl2
      have : some l = some l2 := by rw [← hl]; exact hl2
      cases this
      exact h2
    · intro hnone
      rw [show ({ p with pos := p.pos + 1 } : Parser).line = p.line from rfl, hl] at hnone
      cases hnone
  · rw [Parser.succ_of_ge hl h2]
    constructor
    · intro l2 hl2
      have hpos := Parser.fetchLoop_pos (hl2 : (Parser.fetchLoop p.lines p.line_number).1 = some l2)
      simpa using hpos
    · intro hnone
      exact Parser.fetchLoop_none (hnone : (Parser.fetchLoop p.lines p.line_number).1 = none)

theorem Parser.stream_length_succ {p : Parser} {c : Char} (h : p.getCurChar = some c) :
    p.succ.stream.length + 1 = p.stream.length := by
  rw [Parser.stream_succ h]
  have hh := Parser.cur_head h
  cases hs : p.stream with
  | nil => rw [hs] at hh; simp at hh
  | cons a t => simp [hs]

/-! ## The no-newline invariant of line-split input -/

/-- All materialized lines of the parser are free of newline characters;
true of every state reached from `linesOf` input. -/
def Parser.NoNL (p : Parser) : Prop :=
  (∀ l, p.line = some l → '\n' ∉ l) ∧ (∀ l ∈ p.lines, '\n' ∉ l)

theorem Parser.noNL_succ {p : Parser} (h : p.NoNL) : p.succ.NoNL := by
  cases hl : p.line with
  | none =>
    unfold Parser.succ
    rw [hl]
    exact ⟨fun l2 hl2 => h.1 l2 (hl ▸ hl2), fun l2 hl2 => h.2 l2 hl2⟩
  | some l =>
    by_cases h2 : p.pos + 1 < l.length
    · rw [Parser.succ_of_lt hl h2]
      exact ⟨fun l2 hl2 => h.1 l2 hl2, fun l2 hl2 => h.2 l2 hl2⟩
    · rw [Parser.succ_of_ge hl h2]
      constructor
      · intro l2 hl2
        exact h.2 l2 (Parser.fetchLoop_mem_line
          (hl2 : (Parser.fetchLoop p.lines p.line_number).1 = some l2))
      · intro l2 hl2
        exact h.2 l2 (Parser.fetchLoop_mem_lines hl2)

theorem Parser.cur_ne_nl {p : Parser} {c : Char} (hN : p.NoNL) (h : p.getCurChar = some c) :
    c ≠ '\n' := by
  obtain ⟨l, hl, hlt, hget⟩ := Parser.getCurChar_elim h
  intro hc
  exact hN.1 l hl (hc ▸ List.getElem?_mem hget)

/-! ## Lemmas about expect, consume and whitespace skipping -/

theorem Parser.expectChar_ok {p : Parser} {c : Char} (h : p.getCurChar = some c) :
    p.expectChar c = .ok () := by
  unfold Parser.expectChar
  rw [h]
  simp

theorem Parser.expectChar_ok_elim {p : Parser} {c : Char} {u : Unit}
    (h : p.expectChar c = .ok u) : p.getCurChar = some c := by
  cases hc : p.getCurChar with
  | none => simp [Parser.expectChar, hc] at h
  | some a =>
    simp only [Parser.expectChar, hc] at h
    by_cases he : c = a
    · exact congrArg some he.symm
    · rw [if_neg he] at h; cases h

theorem Parser.consumeChar_ok {p : Parser} {c : Char} (h : p.getCurChar = some c) :
    p.consumeChar c = .ok p.succ := by
  unfold Parser.consumeChar
  rw [Parser.expectChar_ok h]

theorem Parser.consumeChar_ok_elim {p : Parser} {c : Char} {p' : Parser}
    (h : p.consumeChar c = .ok p') : p.getCurChar = some c ∧ p' = p.succ := by
  unfold Parser.consumeChar at h
  cases he : p.expectChar c with
  | error e => rw [he] at h; cases h
  | ok u =>
    rw [he] at h
    cases h
    exact ⟨Parser.expectChar_ok_elim he, rfl⟩

theorem Parser.consumeChar_none {p : Parser} {c : Char} (h : p.getCurChar = none) :
    p.consumeChar c = .error ⟨"expected `" ++ c.toString ++ "`", p.line_number⟩ := by
  simp [Parser.consumeChar, Parser.expectChar, h]

theorem Parser.skipWhitespace_spec (fuel : Nat) {p : Parser} (hN : p.Norm)
    (hf : p.stream.length < fuel) :
    (Parser.skipWhitespace fuel p).stream = p.stream.dropWhile isRustWhitespace ∧
    (Parser.skipWhitespace fuel p).Norm := by
  induction fuel generalizing p with
  | zero => omega
  | succ n ih =>
    cases hc : p.getCurChar with
    | none =>
      have hs := Parser.cur_none_stream hN hc
      simp only [Parser.skipWhitespace, hc]
      rw [hs]
      exact ⟨rfl, hN⟩
    | some ch =>
      have hh := Parser.cur_head hc
      obtain ⟨t, hs⟩ : ∃ t, p.stream = ch :: t := by
        cases hst : p.stream with
        | nil => rw [hst] at hh; cases hh
        | cons a u =>
          rw [hst] at hh
          cases hh
          exact ⟨u, rfl⟩
      by_cases hw : isRustWhitespace ch
      · have hlen := Parser.stream_length_succ hc
        have hrec := ih (Parser.norm_succ hc) (by omega)
        have hstep : Parser.skipWhitespace (n + 1) p = Parser.skipWhitespace n p.succ := by
          simp [Parser.skipWhitespace, hc, hw]
        rw [hstep, hrec.1, Parser.stream_succ hc, hs, List.dropWhile_cons, if_pos hw]
        exact ⟨rfl, hrec.2⟩
      · have hstep : Parser.skipWhitespace (n + 1) p = p := by
          simp [Parser.skipWhitespace, hc, hw]
        rw [hstep, hs, List.dropWhile_cons, if_neg hw]
        exact ⟨rfl, hN⟩

theorem Parser.skipWhitespace_noNL {fuel : Nat} {p : Parser} (h : p.NoNL) :
    (Parser.skipWhitespace fuel p).NoNL := by
  induction fuel generalizing p with
  | zero => exact h
  | succ n ih =>
    cases hc : p.getCurChar with
    | none => simpa only [Parser.skipWhitespace, hc] using h
    | some ch =>
      by_cases hw : isRustWhitespace ch
      · simp only [Parser.skipWhitespace, hc, hw, if_true]
        exact ih (Parser.noNL_succ h)
      · simpa only [Parser.skipWhitespace, hc, hw, if_false] using h

/-! ## Lemmas about the string literal loop -/

theorem Parser.innerStringLoop_spec {s : List Char} : ∀ {fuel : Nat} {p : Parser}
    {cs acc : List Char}, p.Norm → p.stream = s ++ cs → '"' ∉ s →
    (cs = [] ∨ cs.head? = some '"') → s.length < fuel →
    (Parser.innerStringLoop fuel p acc).1 = acc ++ s ∧
    (Parser.innerStringLoop fuel p acc).2.stream = cs ∧
    (Parser.innerStringLoop fuel p acc).2.Norm := by
  induction s with
  | nil =>
    intro fuel p cs acc hN hs hq hstop hf
    obtain ⟨n, rfl⟩ : ∃ n, fuel = n + 1 := ⟨fuel - 1, by omega⟩
    rw [List.nil_append] at hs
    rcases hstop with hcs | hcs
    · have hcur : p.getCurChar = none := by
        rw [Parser.cur_eq_head hN, hs, hcs]
        rfl
      simp only [Parser.innerStringLoop, hcur]
      exact ⟨by simp, hs, hN⟩
    · have hcur : p.getCurChar = some '"' := by rw [Parser.cur_eq_head hN, hs]; exact hcs
      simp only [Parser.innerStringLoop, hcur, if_pos rfl]
      exact ⟨by simp, hs, hN⟩
  | cons a s ih =>
    intro fuel p cs acc hN hs hq hstop hf
    obtain ⟨n, rfl⟩ : ∃ n, fuel = n + 1 := ⟨fuel - 1, by omega⟩
    have hcur : p.getCurChar = some a := by
      rw [Parser.cur_eq_head hN, hs]
      rfl
    have hne : a ≠ '"' := fun he => hq (he ▸ List.mem_cons_self a s)
    have hne2 : ¬ (a = '"') := hne
    simp only [Parser.innerStringLoop, hcur, if_neg hne2]
    have hstream : p.succ.stream = s ++ cs := by
      rw [Parser.stream_succ hcur, hs]
      rfl
    have hrec := @ih n p.succ cs (acc ++ [a])
      (Parser.norm_succ hcur) hstream
      (fun hm => hq (List.mem_cons_of_mem a hm)) hstop (by simp at hf; omega)
    refine ⟨?_, hrec.2.1, hrec.2.2⟩
    rw [hrec.1]
    simp

theorem Parser.innerStringLoop_acc {fuel : Nat} : ∀ {p : Parser} {acc : List Char}, p.NoNL →
    (∃ t, (Parser.innerStringLoop fuel p acc).1 = acc ++ t ∧
      ∀ c ∈ t, c ≠ '"' ∧ c ≠ '\n') ∧
    (Parser.innerStringLoop fuel p acc).2.NoNL := by
  induction fuel with
  | zero =>
    intro p acc hN
    exact ⟨⟨[], by simp [Parser.innerStringLoop], by simp⟩, hN⟩
  | succ n ih =>
    intro p acc hN
    cases hc : p.getCurChar with
    | none =>
      simp only [Parser.innerStringLoop, hc]
      exact ⟨⟨[], by simp, by simp⟩, hN⟩
    | some ch =>
      by_cases hq : ch = '"'
      · simp only [Parser.innerStringLoop, hc, if_pos hq]
        exact ⟨⟨[], by simp, by simp⟩, hN⟩
      · simp only [Parser.innerStringLoop, hc, if_neg hq]
        have hrec := @ih p.succ (acc ++ [ch]) (Parser.noNL_succ hN)
        obtain ⟨⟨t, ht, htc⟩, hnl⟩ := hrec
        refine ⟨⟨ch :: t, by rw [ht]; simp, ?_⟩, hnl⟩
        intro c hcmem
        rcases List.mem_cons.mp hcmem with rfl | hm
        · exact ⟨hq, Parser.cur_ne_nl hN hc⟩
        · exact htc c hm

theorem Parser.parseInnerString_spec (fuel : Nat) {p : Parser} {s cs : List Char}
    (hN : p.Norm) (hs : p.stream = '"' :: (s ++ '"' :: cs)) (hq : '"' ∉ s)
    (hf : s.length < fuel) :
    ∃ p', Parser.parseInnerString fuel p = .ok (s, p') ∧ p'.stream = cs ∧ p'.Norm := by
  have hcur : p.getCurChar = some '"' := by rw [Parser.cur_eq_head hN, hs]; rfl
  have hsucc : p.succ.stream = s ++ '"' :: cs := by rw [Parser.stream_succ hcur, hs]; rfl
  have hloop := @Parser.innerStringLoop_spec s fuel p.succ
    ('"' :: cs) [] (Parser.norm_succ hcur) hsucc hq (Or.inr rfl) hf
  cases hres : Parser.innerStringLoop fuel p.succ [] with
  | mk racc rp =>
    rw [hres] at hloop
    simp only at hloop
    obtain ⟨h1, h2, h3⟩ := hloop
    rw [List.nil_append] at h1
    have hcur2 : rp.getCurChar = some '"' := by rw [Parser.cur_eq_head h3, h2]; rfl
    have hsucc2 : rp.succ.stream = cs := by rw [Parser.stream_succ hcur2, h2]; rfl
    refine ⟨rp.succ, ?_, hsucc2, Parser.norm_succ hcur2⟩
    simp only [Parser.parseInnerString, Parser.consumeChar_ok hcur, hres,
      Parser.consumeChar_ok hcur2, h1]

theorem Parser.parseInnerString_fail {fuel : Nat} {p : Parser} {s : List Char}
    (hN : p.Norm) (hs : p.stream = '"' :: s) (hq : '"' ∉ s) (hf : s.length < fuel) :
    ∃ e, Parser.parseInnerString fuel p = .error e := by
  have hcur : p.getCurChar = some '"' := by rw [Parser.cur_eq_head hN, hs]; rfl
  have hsucc : p.succ.stream = s ++ [] := by rw [Parser.stream_succ hcur, hs]; simp
  have hloop := @Parser.innerStringLoop_spec s fuel p.succ
    [] [] (Parser.norm_succ hcur) hsucc hq (Or.inl rfl) hf
  cases hres : Parser.innerStringLoop fuel p.succ [] with
  | mk racc rp =>
    rw [hres] at hloop
    simp only at hloop
    obtain ⟨h1, h2, h3⟩ := hloop
    have hcur2 : rp.getCurChar = none := by rw [Parser.cur_eq_head h3, h2]; rfl
    refine ⟨⟨"expected `" ++ Char.toString '"' ++ "`", rp.line_number⟩, ?_⟩
    simp only [Parser.parseInnerString, Parser.consumeChar_ok hcur, hres,
      Parser.consumeChar_none hcur2]

theorem Parser.parseInnerString_inv {fuel : Nat} {p p' : Parser} {s : List Char}
    (hN : p.NoNL) (h : Parser.parseInnerString fuel p = .ok (s, p')) :
    (∀ c ∈ s, c ≠ '"' ∧ c ≠ '\n') ∧ p'.NoNL := by
  cases hc1 : p.consumeChar '"' with
  | error e =>
    rw [Parser.parseInnerString, hc1] at h
    cases h
  | ok p1 =>
    obtain ⟨hcur1, rfl⟩ := Parser.consumeChar_ok_elim hc1
    have hloop := @Parser.innerStringLoop_acc fuel p.succ []
      (Parser.noNL_succ hN)
    cases hres : Parser.innerStringLoop fuel p.succ [] with
    | mk racc rp =>
      rw [hres] at hloop
      simp only at hloop
      obtain ⟨⟨t, ht, htc⟩, hnl⟩ := hloop
      rw [List.nil_append] at ht
      cases hc2 : rp.consumeChar '"' with
      | error e =>
        simp only [Parser.parseInnerString, hc1, hres, hc2] at h
        cases h
      | ok p2 =>
        obtain ⟨hcur2, rfl⟩ := Parser.consumeChar_ok_elim hc2
        simp only [Parser.parseInnerString, hc1, hres, hc2, Except.ok.injEq,
          Prod.mk.injEq] at h
        obtain ⟨h4, h5⟩ := h
        subst h4
        subst h5
        exact ⟨fun c hcm => htc c (ht ▸ hcm), Parser.noNL_succ hnl⟩

/-! ## Lemmas about number parsing -/

theorem Parser.numberLoop_spec {s : List Char} : ∀ {fuel : Nat} {p : Parser}
    {cs acc : List Char}, p.Norm → p.stream = s ++ cs →
    (∀ c ∈ s, validNumChar c = true) →
    (∀ c, cs.head? = some c → validNumChar c = false) → s.length < fuel →
    (Parser.numberLoop fuel p acc).1 = acc ++ s ∧
    (Parser.numberLoop fuel p acc).2.stream = cs ∧
    (Parser.numberLoop fuel p acc).2.Norm := by
  induction s with
  | nil =>
    intro fuel p cs acc hN hs hv hcs hf
    obtain ⟨n, rfl⟩ : ∃ n, fuel = n + 1 := ⟨fuel - 1, by omega⟩
    rw [List.nil_append] at hs
    cases hc : p.getCurChar with
    | none =>
      simp only [Parser.numberLoop, hc]
      exact ⟨by simp, hs, hN⟩
    | some ch =>
      have hh := Parser.cur_head hc
      rw [hs] at hh
      have hvf : validNumChar ch = false := hcs ch hh
      simp only [Parser.numberLoop, hc, hvf]
      exact ⟨by simp, hs, hN⟩
  | cons a s ih =>
    intro fuel p cs acc hN hs hv hcs hf
    obtain ⟨n, rfl⟩ : ∃ n, fuel = n + 1 := ⟨fuel - 1, by omega⟩
    have hcur : p.getCurChar = some a := by
      rw [Parser.cur_eq_head hN, hs]
      rfl
    have hva : validNumChar a = true := hv a (List.mem_cons_self a s)
    simp only [Parser.numberLoop, hcur, hva, if_true]
    have hstream : p.succ.stream = s ++ cs := by
      rw [Parser.stream_succ hcur, hs]
      rfl
    have hrec := @ih n p.succ cs (acc ++ [a])
      (Parser.norm_succ hcur) hstream
      (fun c hm => hv c (List.mem_cons_of_mem a hm)) hcs (by simp at hf; omega)
    refine ⟨?_, hrec.2.1, hrec.2.2⟩
    rw [hrec.1]
    simp

theorem Parser.numberLoop_acc {fuel : Nat} : ∀ {p : Parser} {acc : List Char}, p.NoNL →
    (∃ t, (Parser.numberLoop fuel p acc).1 = acc ++ t ∧
      ∀ c ∈ t, validNumChar c = true) ∧
    (Parser.numberLoop fuel p acc).2.NoNL := by
  induction fuel with
  | zero =>
    intro p acc hN
    exact ⟨⟨[], by simp [Parser.numberLoop], by simp⟩, hN⟩
  | succ n ih =>
    intro p acc hN
    cases hc : p.getCurChar with
    | none =>
      simp only [Parser.numberLoop, hc]
      exact ⟨⟨[], by simp, by simp⟩, hN⟩
    | some ch =>
      by_cases hv : validNumChar ch = true
      · simp only [Parser.numberLoop, hc, hv, if_true]
        have hrec := @ih p.succ (acc ++ [ch]) (Parser.noNL_succ hN)
        obtain ⟨⟨t, ht, htc⟩, hnl⟩ := hrec
        refine ⟨⟨ch :: t, by rw [ht]; simp, ?_⟩, hnl⟩
        intro c hcmem
        rcases List.mem_cons.mp hcmem with rfl | hm
        · exact hv
        · exact htc c hm
      · have hv2 : validNumChar ch = false := by
          cases hvv : validNumChar ch
          · rfl
          · exact absurd hvv hv
        simp only [Parser.numberLoop, hc, hv2]
        exact ⟨⟨[], by simp, by simp⟩, hN⟩

theorem dropWhile_head_false {q : Char → Bool} {l : List Char} :
    ∀ c, (l.dropWhile q).head? = some c → q c = false := by
  intro c hc
  have := List.head?_dropWhile_not q l
  rw [hc] at this
  exact this

theorem Parser.parseNumber_spec (fuel : Nat) {p : Parser} (hN : p.Norm)
    (hf : p.stream.length < fuel) :
    ∃ p', Parser.parseNumber fuel p =
        .ok (.number ((if p.stream.head? = some '-' then ['-'] else []) ++
          ((if p.stream.head? = some '-' then p.stream.tail else p.stream).takeWhile
            validNumChar)), p') ∧
      p'.stream = (if p.stream.head? = some '-' then p.stream.tail
        else p.stream).dropWhile validNumChar ∧
      p'.Norm := by
  by_cases hm : p.stream.head? = some '-'
  · have hcur : p.getCurChar = some '-' := by rw [Parser.cur_eq_head hN]; exact hm
    have hloop := @Parser.numberLoop_spec (p.stream.tail.takeWhile validNumChar)
      fuel p.succ (p.stream.tail.dropWhile validNumChar)
      ['-'] (Parser.norm_succ hcur)
      (by rw [Parser.stream_succ hcur, List.takeWhile_append_dropWhile])
      (fun c hc => List.mem_takeWhile_imp hc) dropWhile_head_false
      (by
        have h1 := (List.takeWhile_sublist (l := p.stream.tail) validNumChar).length_le
        have h2 : p.stream.tail.length < p.stream.length := by
          have hh := Parser.cur_head hcur
          cases hst : p.stream with
          | nil => rw [hst] at hh; cases hh
          | cons a u => simp [hst]
        omega)
    have hstart : (match p.getCurChar with
        | some ch => if ch = '-' then (['-'], p.succ) else ([], p)
        | none => ([], p)) = (['-'], p.succ) := by
      simp [hcur]
    refine ⟨(Parser.numberLoop fuel p.succ ['-']).2, ?_, ?_, hloop.2.2⟩
    · simp only [Parser.parseNumber, hstart, if_pos hm]
      cases hres : Parser.numberLoop fuel p.succ ['-'] with
      | mk rnum rp =>
        rw [hres] at hloop
        simp only at hloop ⊢
        rw [hloop.1]
    · rw [if_pos hm]
      exact hloop.2.1
  · have hcur : p.getCurChar ≠ some '-' := by rw [Parser.cur_eq_head hN]; exact hm
    have hloop := @Parser.numberLoop_spec (p.stream.takeWhile validNumChar)
      fuel p (p.stream.dropWhile validNumChar)
      [] hN (List.takeWhile_append_dropWhile validNumChar p.stream).symm
      (fun c hc => List.mem_takeWhile_imp hc) dropWhile_head_false
      (by
        have h1 := (List.takeWhile_sublist (l := p.stream) validNumChar).length_le
        omega)
    have hstart : (match p.getCurChar with
        | some ch => if ch = '-' then (['-'], p.succ) else ([], p)
        | none => ([], p)) = (([] : List Char), p) := by
      cases hc : p.getCurChar with
      | none => rfl
      | some ch =>
        have hne : ¬ (ch = '-') := fun he => hcur (he ▸ hc)
        simp [hne]
    refine ⟨(Parser.numberLoop fuel p []).2, ?_, ?_, hloop.2.2⟩
    · simp only [Parser.parseNumber, hstart, if_neg hm]
      cases hres : Parser.numberLoop fuel p [] with
      | mk rnum rp =>
        rw [hres] at hloop
        simp only at hloop ⊢
        rw [hloop.1]
    · rw [if_neg hm]
      exact hloop.2.1

/-- Wellformedness of a number literal as the public entry point can
produce it: nonempty, first character a minus or digit, every later
character a digit or dot. -/
def numWf : List Char → Bool
  | [] => false
  | c :: rest => (c == '-' || c.isDigit) && rest.all validNumChar

theorem Parser.parseNumber_inv {fuel : Nat} {p p' : Parser} {v : Value} {c : Char}
    (hN : p.NoNL) (hcur : p.getCurChar = some c) (hc : c = '-' ∨ c.isDigit)
    (hfuel : 0 < fuel)
    (h : Parser.parseNumber fuel p = .ok (v, p')) :
    (∃ n, v = .number n ∧ numWf n = true) ∧ p'.NoNL := by
  by_cases hm : c = '-'
  · subst hm
    have hstart : (match p.getCurChar with
        | some ch => if ch = '-' then (['-'], p.succ) else ([], p)
        | none => ([], p)) = (['-'], p.succ) := by
      simp [hcur]
    have hloop := @Parser.numberLoop_acc fuel p.succ ['-']
      (Parser.noNL_succ hN)
    simp only [Parser.parseNumber, hstart] at h
    cases hres : Parser.numberLoop fuel p.succ ['-'] with
    | mk rnum rp =>
      rw [hres] at h hloop
      simp only [Except.ok.injEq, Prod.mk.injEq] at h
      obtain ⟨h1, h2⟩ := h
      subst h1
      subst h2
      obtain ⟨⟨t, ht, htc⟩, hnl⟩ := hloop
      simp only at ht hnl
      refine ⟨⟨rnum, rfl, ?_⟩, hnl⟩
      have ht2 : rnum = '-' :: t := by rw [ht]; rfl
      rw [ht2]
      simp only [numWf, Bool.and_eq_true, List.all_eq_true]
      exact ⟨by simp, htc⟩
  · obtain ⟨m, rfl⟩ : ∃ m, fuel = m + 1 := ⟨fuel - 1, by omega⟩
    have hdig : c.isDigit := hc.resolve_left hm
    have hstart : (match p.getCurChar with
        | some ch => if ch = '-' then (['-'], p.succ) else ([], p)
        | none => ([], p)) = ([], p) := by
      simp [hcur, hm]
    have hvc : validNumChar c = true := by
      unfold validNumChar
      rw [hdig]
      rfl
    have hstep : Parser.numberLoop (m + 1) p [] = Parser.numberLoop m p.succ [c] := by
      simp [Parser.numberLoop, hcur, hvc]
    have hloop := @Parser.numberLoop_acc m p.succ [c]
      (Parser.noNL_succ hN)
    simp only [Parser.parseNumber, hstart, hstep] at h
    cases hres : Parser.numberLoop m p.succ [c] with
    | mk rnum rp =>
      rw [hres] at h hloop
      simp only [Except.ok.injEq, Prod.mk.injEq] at h
      obtain ⟨h1, h2⟩ := h
      subst h1
      subst h2
      obtain ⟨⟨t, ht, htc⟩, hnl⟩ := hloop
      simp only at ht hnl
      refine ⟨⟨rnum, rfl, ?_⟩, hnl⟩
      have ht2 : rnum = c :: t := by rw [ht]; rfl
      rw [ht2]
      simp only [numWf, Bool.and_eq_true, List.all_eq_true]
      exact ⟨by simp [hdig], htc⟩

/-! ## Formatter state restoration and pure rendering -/

theorem Formatter.depth_all (n : Nat) :
    (∀ (v : Value) (f : Formatter), sizeOf v ≤ n → (Formatter.format f v).2 = f) ∧
    (∀ (l : List Pair) (f : Formatter), sizeOf l ≤ n → (Formatter.formatPairs f l).2 = f) ∧
    (∀ (l : List Value) (f : Formatter), sizeOf l ≤ n → (Formatter.formatValues f l).2 = f) := by
  induction n using Nat.strong_induction_on with
  | _ n ih =>
    refine ⟨?_, ?_, ?_⟩
    · intro v f hs
      cases v with
      | string s => rfl
      | number m => rfl
      | object pairs =>
        by_cases hp : pairs.isEmpty
        · simp [Formatter.format, hp]
        · have hsz : sizeOf pairs < n := by
            have := Value.object.sizeOf_spec pairs
            omega
          have hrec := (ih (sizeOf pairs) hsz).2.1 pairs ⟨f.depth + 1⟩ (le_refl _)
          simp only [Formatter.format, hp, if_false]
          cases hres : Formatter.formatPairs ⟨f.depth + 1⟩ pairs with
          | mk items f2 =>
            rw [hres] at hrec
            simp only at hrec ⊢
            rw [hrec]
            simp
      | array vs =>
        by_cases hp : vs.isEmpty
        · simp [Formatter.format, hp]
        · have hsz : sizeOf vs < n := by
            have := Value.array.sizeOf_spec vs
            omega
          have hrec := (ih (sizeOf vs) hsz).2.2 vs ⟨f.depth + 1⟩ (le_refl _)
          simp only [Formatter.format, hp, if_false]
          cases hres : Formatter.formatValues ⟨f.depth + 1⟩ vs with
          | mk items f2 =>
            rw [hres] at hrec
            simp only at hrec ⊢
            rw [hrec]
            simp
    · intro l f hs
      cases l with
      | nil => rfl
      | cons pr rest =>
        obtain ⟨k, pv⟩ := pr
        have hsz1 : sizeOf pv < n := by
          have h1 := List.cons.sizeOf_spec (k, pv) rest
          have h2 := Prod.mk.sizeOf_spec k pv
          omega
        have hsz2 : sizeOf rest < n := by
          have h1 := List.cons.sizeOf_spec (k, pv) rest
          omega
        have hrec1 := (ih (sizeOf pv) hsz1).1 pv f (le_refl _)
        have hrec2 := (ih (sizeOf rest) hsz2).2.1 rest f (le_refl _)
        simp only [Formatter.formatPairs]
        cases hres1 : Formatter.format f pv with
        | mk s f1 =>
          rw [hres1] at hrec1
          simp only at hrec1 ⊢
          rw [hrec1]
          cases hres2 : Formatter.formatPairs f rest with
          | mk items f2 =>
            rw [hres2] at hrec2
            simp only at hrec2 ⊢
            exact hrec2
    · intro l f hs
      cases l with
      | nil => rfl
      | cons v rest =>
        have hsz1 : sizeOf v < n := by
          have h1 := List.cons.sizeOf_spec v rest
          omega
        have hsz2 : sizeOf rest < n := by
          have h1 := List.cons.sizeOf_spec v rest
          omega
        have hrec1 := (ih (sizeOf v) hsz1).1 v f (le_refl _)
        have hrec2 := (ih (sizeOf rest) hsz2).2.2 rest f (le_refl _)
        simp only [Formatter.formatValues]
        cases hres1 : Formatter.format f v with
        | mk s f1 =>
          rw [hres1] at hrec1
          simp only at hrec1 ⊢
          rw [hrec1]
          cases hres2 : Formatter.formatValues f rest with
          | mk items f2 =>
            rw [hres2] at hrec2
            simp only at hrec2 ⊢
            exact hrec2

theorem Formatter.format_depth (f : Formatter) (v : Value) :
    (Formatter.format f v).2 = f :=
  (Formatter.depth_all (sizeOf v)).1 v f (le_refl _)

theorem Formatter.formatPairs_depth (f : Formatter) (l : List Pair) :
    (Formatter.formatPairs f l).2 = f :=
  (Formatter.depth_all (sizeOf l)).2.1 l f (le_refl _)

theorem Formatter.formatValues_depth (f : Formatter) (l : List Value) :
    (Formatter.formatValues f l).2 = f :=
  (Formatter.depth_all (sizeOf l)).2.2 l f (le_refl _)

/-- Pure rendering at a given depth; agrees with the stateful formatter. -/
def fmt (d : Nat) (v : Value) : List Char := (Formatter.format ⟨d⟩ v).1

theorem fmt_string (d : Nat) (s : List Char) : fmt d (.string s) = '"' :: s ++ ['"'] := rfl

theorem fmt_number (d : Nat) (m : List Char) : fmt d (.number m) = m := rfl

theorem fmt_object_nil (d : Nat) : fmt d (.object []) = ['{', '}'] := rfl

theorem fmt_array_nil (d : Nat) : fmt d (.array []) = ['[', ']'] := rfl

theorem Formatter.formatPairs_eq (d : Nat) (l : List Pair) :
    Formatter.formatPairs ⟨d⟩ l =
      (l.map (fun pr => Formatter.indent ⟨d⟩ ++ '"' :: pr.1.val ++ '"' :: ':' :: ' ' ::
        fmt d pr.2), (⟨d⟩ : Formatter)) := by
  induction l with
  | nil => rfl
  | cons pr rest ih =>
    have h1 : Formatter.format ⟨d⟩ pr.2 = (fmt d pr.2, (⟨d⟩ : Formatter)) :=
      Prod.ext rfl (Formatter.format_depth ⟨d⟩ pr.2)
    simp only [Formatter.formatPairs, h1, ih, List.map_cons]

theorem Formatter.formatValues_eq (d : Nat) (l : List Value) :
    Formatter.formatValues ⟨d⟩ l =
      (l.map (fun v => Formatter.indent ⟨d⟩ ++ fmt d v), (⟨d⟩ : Formatter)) := by
  induction l with
  | nil => rfl
  | cons v rest ih =>
    have h1 : Formatter.format ⟨d⟩ v = (fmt d v, (⟨d⟩ : Formatter)) :=
      Prod.ext rfl (Formatter.format_depth ⟨d⟩ v)
    simp only [Formatter.formatValues, h1, ih, List.map_cons]

theorem fmt_object (d : Nat) (pairs : List Pair) (h : pairs ≠ []) :
    fmt d (.object pairs) = '{' :: '
' ::
      (List.intercalate [',', '
'] (pairs.map fun pr =>
        Formatter.indent ⟨d + 1⟩ ++ '"' :: pr.1.val ++ '"' :: ':' :: ' ' ::
          fmt (d + 1) pr.2)) ++
      '
' :: Formatter.indent ⟨d⟩ ++ ['}'] := by
  have hp : pairs.isEmpty = false := by
    cases pairs with
    | nil => exact absurd rfl h
    | cons a t => rfl
  unfold fmt
  simp only [Formatter.format, hp, if_false, Formatter.formatPairs_eq]
  simp [fmt]

theorem fmt_array (d : Nat) (vs : List Value) (h : vs ≠ []) :
    fmt d (.array vs) = '[' :: '
' ::
      (List.intercalate [',', '
'] (vs.map fun v =>
        Formatter.indent ⟨d + 1⟩ ++ fmt (d + 1) v)) ++
      '
' :: Formatter.indent ⟨d⟩ ++ [']'] := by
  have hp : vs.isEmpty = false := by
    cases vs with
    | nil => exact absurd rfl h
    | cons a t => rfl
  unfold fmt
  simp only [Formatter.format, hp, if_false, Formatter.formatValues_eq]
  simp [fmt]

theorem formatTop_eq (v : Value) : formatTop v = fmt 0 v := rfl

theorem indent_eq (d : Nat) :
    Formatter.indent ⟨d⟩ = List.replicate (4 * d) ' ' := by
  show (List.replicate d (List.replicate 4 ' ')).flatten = _
  rw [List.flatten_replicate_replicate, Nat.mul_comm]

/-! ## Wellformedness predicates on parsed trees -/

mutual

/-- Generic check of every string payload, key payload and number literal
of a tree. -/
def Value.checkLeaves (onStr onKey onNum : List Char → Bool) : Value → Bool
  | .string s => onStr s
  | .number n => onNum n
  | .object pairs => Value.checkPairs onStr onKey onNum pairs
  | .array vs => Value.checkList onStr onKey onNum vs

def Value.checkPairs (onStr onKey onNum : List Char → Bool) : List Pair → Bool
  | [] => true
  | pr :: rest => onKey pr.1.val && Value.checkLeaves onStr onKey onNum pr.2 &&
      Value.checkPairs onStr onKey onNum rest

def Value.checkList (onStr onKey onNum : List Char → Bool) : List Value → Bool
  | [] => true
  | v :: rest => Value.checkLeaves onStr onKey onNum v &&
      Value.checkList onStr onKey onNum rest

end

/-- A string or key payload as the parser produces it: free of quotes and
newlines. -/
def cleanStr (s : List Char) : Bool := s.all (fun c => !(c == '"') && !(c == '\n'))

/-- Trees producible by the public parse entry point. -/
def Value.wf : Value → Bool := Value.checkLeaves cleanStr cleanStr numWf

theorem Value.checkLeaves_mono {f1 g1 k1 f2 g2 k2 : List Char → Bool}
    (hf : ∀ s, f1 s = true → f2 s = true) (hg : ∀ s, g1 s = true → g2 s = true)
    (hk : ∀ s, k1 s = true → k2 s = true) (n : Nat) :
    (∀ v : Value, sizeOf v ≤ n → Value.checkLeaves f1 g1 k1 v = true →
      Value.checkLeaves f2 g2 k2 v = true) ∧
    (∀ l : List Pair, sizeOf l ≤ n → Value.checkPairs f1 g1 k1 l = true →
      Value.checkPairs f2 g2 k2 l = true) ∧
    (∀ l : List Value, sizeOf l ≤ n → Value.checkList f1 g1 k1 l = true →
      Value.checkList f2 g2 k2 l = true) := by
  induction n using Nat.strong_induction_on with
  | _ n ih =>
    refine ⟨?_, ?_, ?_⟩
    · intro v hs hv
      cases v with
      | string s => exact hf s hv
      | number m => exact hk m hv
      | object pairs =>
        have hsz : sizeOf pairs < n := by
          have := Value.object.sizeOf_spec pairs
          omega
        exact (ih (sizeOf pairs) hsz).2.1 pairs (le_refl _) hv
      | array vs =>
        have hsz : sizeOf vs < n := by
          have := Value.array.sizeOf_spec vs
          omega
        exact (ih (sizeOf vs) hsz).2.2 vs (le_refl _) hv
    · intro l hs hv
      cases l with
      | nil => rfl
      | cons pr rest =>
        obtain ⟨k, pv⟩ := pr
        simp only [Value.checkPairs, Bool.and_eq_true] at hv ⊢
        have hsz1 : sizeOf pv < n := by
          have h1 := List.cons.sizeOf_spec (k, pv) rest
          have h2 := Prod.mk.sizeOf_spec k pv
          omega
        have hsz2 : sizeOf rest < n := by
          have h1 := List.cons.sizeOf_spec (k, pv) rest
          omega
        exact ⟨⟨hg _ hv.1.1, (ih (sizeOf pv) hsz1).1 pv (le_refl _) hv.1.2⟩,
          (ih (sizeOf rest) hsz2).2.1 rest (le_refl _) hv.2⟩
    · intro l hs hv
      cases l with
      | nil => rfl
      | cons v rest =>
        simp only [Value.checkList, Bool.and_eq_true] at hv ⊢
        have hsz1 : sizeOf v < n := by
          have h1 := List.cons.sizeOf_spec v rest
          omega
        have hsz2 : sizeOf rest < n := by
          have h1 := List.cons.sizeOf_spec v rest
          omega
        exact ⟨(ih (sizeOf v) hsz1).1 v (le_refl _) hv.1,
          (ih (sizeOf rest) hsz2).2.2 rest (le_refl _) hv.2⟩

theorem cleanStr_of {s : List Char} (h : ∀ c ∈ s, c ≠ '"' ∧ c ≠ '\n') :
    cleanStr s = true := by
  simp only [cleanStr, List.all_eq_true]
  intro c hc
  obtain ⟨h1, h2⟩ := h c hc
  simp [h1, h2]

theorem Value.checkPairs_append (f g k : List Char → Bool) (l1 l2 : List Pair) :
    Value.checkPairs f g k (l1 ++ l2) =
      (Value.checkPairs f g k l1 && Value.checkPairs f g k l2) := by
  induction l1 with
  | nil => simp [Value.checkPairs]
  | cons pr rest ih =>
    simp [Value.checkPairs, ih, Bool.and_assoc]

theorem Value.checkList_append (f g k : List Char → Bool) (l1 l2 : List Value) :
    Value.checkList f g k (l1 ++ l2) =
      (Value.checkList f g k l1 && Value.checkList f g k l2) := by
  induction l1 with
  | nil => simp [Value.checkList]
  | cons v rest ih =>
    simp [Value.checkList, ih, Bool.and_assoc]

/-! ## The parser invariant: every tree returned is wellformed -/

theorem parse_inv_all : ∀ fuel : Nat,
    (∀ p v p', p.NoNL → Parser.parseValue fuel p = .ok (v, p') →
      Value.wf v = true ∧ p'.NoNL) ∧
    (∀ p v p', p.NoNL → Parser.parseObject fuel p = .ok (v, p') →
      Value.wf v = true ∧ p'.NoNL) ∧
    (∀ p acc res p', p.NoNL → Parser.objectLoop fuel p acc = .ok (res, p') →
      (Value.checkPairs cleanStr cleanStr numWf acc = true →
        Value.checkPairs cleanStr cleanStr numWf res = true) ∧ p'.NoNL) ∧
    (∀ p v p', p.NoNL → Parser.parseArray fuel p = .ok (v, p') →
      Value.wf v = true ∧ p'.NoNL) ∧
    (∀ p acc res p', p.NoNL → Parser.arrayLoop fuel p acc = .ok (res, p') →
      (Value.checkList cleanStr cleanStr numWf acc = true →
        Value.checkList cleanStr cleanStr numWf res = true) ∧ p'.NoNL) := by
  intro fuel
  induction fuel with
  | zero =>
    refine ⟨?_, ?_, ?_, ?_, ?_⟩
    · intro p v p' hN h
      simp [Parser.parseValue] at h
    · intro p v p' hN h
      simp [Parser.parseObject] at h
    · intro p acc res p' hN h
      simp [Parser.objectLoop] at h
    · intro p v p' hN h
      simp [Parser.parseArray] at h
    · intro p acc res p' hN h
      simp [Parser.arrayLoop] at h
  | succ fuel ih =>
    obtain ⟨ihV, ihO, ihOL, ihA, ihAL⟩ := ih
    refine ⟨?_, ?_, ?_, ?_, ?_⟩
    -- parse_value
    · intro p v p' hN h
      simp only [Parser.parseValue] at h
      have hN1 : (Parser.skipWhitespace (fuel + 1) p).NoNL := Parser.skipWhitespace_noNL hN
      split at h
      · exact ihO _ _ _ hN1 h
      · exact ihA _ _ _ hN1 h
      · -- string value
        unfold Parser.parseStringValue at h
        cases hps : Parser.parseInnerString (fuel + 1) (Parser.skipWhitespace (fuel + 1) p) with
        | error e => rw [hps] at h; simp at h
        | ok sp =>
          simp only [hps] at h
          cases sp with
          | mk s p2 =>
            dsimp only at h
            simp only [Except.ok.injEq, Prod.mk.injEq] at h
            obtain ⟨h1, h2⟩ := h
            subst h1
            subst h2
            have hinv := Parser.parseInnerString_inv hN1 hps
            exact ⟨cleanStr_of hinv.1, hinv.2⟩
      · -- number or invalid token
        rename_i ch hne1 hne2 hne3 heq
        by_cases hd : (ch = '-' || ch.isDigit) = true
        · rw [if_pos hd] at h
          have hc : ch = '-' ∨ ch.isDigit := by
            rcases Bool.or_eq_true_iff.mp hd with h1 | h1
            · exact Or.inl (by simpa using h1)
            · exact Or.inr h1
          have hinv := Parser.parseNumber_inv hN1 heq hc (by omega) h
          obtain ⟨⟨m, rfl, hm⟩, hnl⟩ := hinv
          exact ⟨hm, hnl⟩
        · rw [if_neg hd] at h
          simp at h
      · simp at h
    -- parse_object
    · intro p v p' hN h
      simp only [Parser.parseObject] at h
      cases he : p.expectChar '\x7b' with
      | error e => simp only [he] at h; simp at h
      | ok u =>
        simp only [he] at h
        have hNs : (Parser.skipWhitespace (fuel + 1) p.succ).NoNL :=
          Parser.skipWhitespace_noNL (Parser.noNL_succ hN)
        by_cases hcb : (Parser.skipWhitespace (fuel + 1) p.succ).curCharIs '\x7d'
        · rw [if_pos hcb] at h
          simp only [Except.ok.injEq, Prod.mk.injEq] at h
          obtain ⟨h1, h2⟩ := h
          subst h1
          subst h2
          refine ⟨rfl, ?_⟩
          have : ∃ c, (Parser.skipWhitespace (fuel + 1) p.succ).getCurChar = some c := by
            unfold Parser.curCharIs at hcb
            cases hg : (Parser.skipWhitespace (fuel + 1) p.succ).getCurChar with
            | none => rw [hg] at hcb; simp at hcb
            | some c => exact ⟨c, rfl⟩
          exact Parser.noNL_succ hNs
        · rw [if_neg hcb] at h
          cases hol : Parser.objectLoop fuel (Parser.skipWhitespace (fuel + 1) p.succ) [] with
          | error e => simp only [hol] at h; simp at h
          | ok rp =>
            simp only [hol] at h
            cases rp with
            | mk pairs p2 =>
              dsimp only at h
              have hloop := ihOL _ _ _ _ hNs hol
              cases he2 : p2.expectChar '\x7d' with
              | error e => simp only [he2] at h; simp at h
              | ok u2 =>
                simp only [he2, Except.ok.injEq, Prod.mk.injEq] at h
                obtain ⟨h1, h2⟩ := h
                subst h1
                subst h2
                exact ⟨hloop.1 rfl, Parser.noNL_succ hloop.2⟩
    -- object loop
    · intro p acc res p' hN h
      simp only [Parser.objectLoop] at h
      have hN1 : (Parser.skipWhitespace (fuel + 1) p).NoNL := Parser.skipWhitespace_noNL hN
      cases hk : Parser.parseStringKey (fuel + 1) (Parser.skipWhitespace (fuel + 1) p) with
      | error e => simp only [hk] at h; simp at h
      | ok kp =>
        simp only [hk] at h
        cases kp with
        | mk key p2 =>
          dsimp only at h
          unfold Parser.parseStringKey at hk
          obtain ⟨s, hps, hkey⟩ : ∃ s, Parser.parseInnerString (fuel + 1)
              (Parser.skipWhitespace (fuel + 1) p) = .ok (s, p2) ∧ key = ⟨s⟩ := by
            cases hps : Parser.parseInnerString (fuel + 1)
                (Parser.skipWhitespace (fuel + 1) p) with
            | error e => rw [hps] at hk; simp at hk
            | ok sp =>
              rw [hps] at hk
              cases sp with
              | mk s p3 =>
                simp only [Except.ok.injEq, Prod.mk.injEq] at hk
                refine ⟨s, ?_, hk.1.symm⟩
                rw [hk.2]
          have hkinv := Parser.parseInnerString_inv hN1 hps
          have hN2 : p2.NoNL := hkinv.2
          have hN3 : (Parser.skipWhitespace (fuel + 1) p2).NoNL :=
            Parser.skipWhitespace_noNL hN2
          cases hcol : (Parser.skipWhitespace (fuel + 1) p2).consumeChar ':' with
          | error e => simp only [hcol] at h; simp at h
          | ok p4 =>
            simp only [hcol] at h
            obtain ⟨hcur4, rfl⟩ := Parser.consumeChar_ok_elim hcol
            have hN4 : (Parser.skipWhitespace (fuel + 1) p2).succ.NoNL :=
              Parser.noNL_succ hN3
            cases hv : Parser.parseValue fuel (Parser.skipWhitespace (fuel + 1) p2).succ with
            | error e => simp only [hv] at h; simp at h
            | ok vp =>
              simp only [hv] at h
              cases vp with
              | mk v2 p5 =>
                dsimp only at h
                have hvinv := ihV _ _ _ hN4 hv
                have hN5 : p5.NoNL := hvinv.2
                have hN6 : (Parser.skipWhitespace (fuel + 1) p5).NoNL :=
                  Parser.skipWhitespace_noNL hN5
                have hpairOK : Value.checkPairs cleanStr cleanStr numWf [(key, v2)] = true := by
                  simp only [Value.checkPairs, Bool.and_eq_true]
                  refine ⟨⟨?_, hvinv.1⟩, trivial⟩
                  rw [hkey]
                  exact cleanStr_of hkinv.1
                split at h
                · -- comma: recurse
                  rename_i heq6
                  have hrec := ihOL _ _ _ _ (Parser.noNL_succ hN6) h
                  refine ⟨?_, hrec.2⟩
                  intro hacc
                  apply hrec.1
                  rw [Value.checkPairs_append]
                  simp [hacc, hpairOK]
                · -- close brace: stop
                  simp only [Except.ok.injEq, Prod.mk.injEq] at h
                  obtain ⟨h1, h2⟩ := h
                  subst h1
                  subst h2
                  refine ⟨?_, hN6⟩
                  intro hacc
                  rw [Value.checkPairs_append]
                  simp [hacc, hpairOK]
                · simp at h
                · simp at h
    -- parse_array
    · intro p v p' hN h
      simp only [Parser.parseArray] at h
      cases he : p.consumeChar '[' with
      | error e => simp only [he] at h; simp at h
      | ok p1 =>
        simp only [he] at h
        obtain ⟨hcur1, rfl⟩ := Parser.consumeChar_ok_elim he
        have hNs : (Parser.skipWhitespace (fuel + 1) p.succ).NoNL :=
          Parser.skipWhitespace_noNL (Parser.noNL_succ hN)
        by_cases hcb : (Parser.skipWhitespace (fuel + 1) p.succ).curCharIs ']'
        · rw [if_pos hcb] at h
          simp only [Except.ok.injEq, Prod.mk.injEq] at h
          obtain ⟨h1, h2⟩ := h
          subst h1
          subst h2
          exact ⟨rfl, Parser.noNL_succ hNs⟩
        · rw [if_neg hcb] at h
          cases hal : Parser.arrayLoop fuel (Parser.skipWhitespace (fuel + 1) p.succ) [] with
          | error e => simp only [hal] at h; simp at h
          | ok rp =>
            simp only [hal] at h
            cases rp with
            | mk vs p2 =>
              dsimp only at h
              have hloop := ihAL _ _ _ _ hNs hal
              cases he2 : p2.consumeChar ']' with
              | error e => simp only [he2] at h; simp at h
              | ok p3 =>
                simp only [he2, Except.ok.injEq, Prod.mk.injEq] at h
                obtain ⟨h1, h2⟩ := h
                subst h1
                subst h2
                obtain ⟨hcur2, rfl⟩ := Parser.consumeChar_ok_elim he2
                exact ⟨hloop.1 rfl, Parser.noNL_succ hloop.2⟩
    -- array loop
    · intro p acc res p' hN h
      simp only [Parser.arrayLoop] at h
      cases hv : Parser.parseValue fuel p with
      | error e => simp only [hv] at h; simp at h
      | ok vp =>
        simp only [hv] at h
        cases vp with
        | mk v2 p1 =>
          dsimp only at h
          have hvinv := ihV _ _ _ hN hv
          have hN1 : p1.NoNL := hvinv.2
          have hN2 : (Parser.skipWhitespace (fuel + 1) p1).NoNL :=
            Parser.skipWhitespace_noNL hN1
          have hw2 : Value.checkLeaves cleanStr cleanStr numWf v2 = true := hvinv.1
          have helOK : Value.checkList cleanStr cleanStr numWf [v2] = true := by
            simp [Value.checkList, hw2]
          split at h
          · have hrec := ihAL _ _ _ _ (Parser.noNL_succ hN2) h
            refine ⟨?_, hrec.2⟩
            intro hacc
            apply hrec.1
            rw [Value.checkList_append]
            simp [hacc, helOK]
          · simp only [Except.ok.injEq, Prod.mk.injEq] at h
            obtain ⟨h1, h2⟩ := h
            subst h1
            subst h2
            refine ⟨?_, hN2⟩
            intro hacc
            rw [Value.checkList_append]
            simp [hacc, helOK]
          · simp at h
          · simp at h

/-! ## Properties of the line splitter and the entry point -/

theorem stripCR_subset {l : List Char} {c : Char} (h : c ∈ stripCR l) : c ∈ l := by
  unfold stripCR at h
  split at h
  · exact List.dropLast_subset l h
  · exact h

theorem linesAux_noNL : ∀ (s acc : List Char), (∀ c ∈ acc, c ≠ '\n') →
    ∀ l ∈ linesAux acc s, '\n' ∉ l := by
  intro s
  induction s with
  | nil =>
    intro acc hacc l hl
    simp only [linesAux] at hl
    by_cases ha : acc.isEmpty
    · rw [if_pos ha] at hl
      cases hl
    · rw [if_neg ha] at hl
      simp only [List.mem_singleton] at hl
      subst hl
      intro hmem
      exact hacc '\n' (List.mem_reverse.mp hmem) rfl
  | cons c rest ih =>
    intro acc hacc l hl
    simp only [linesAux] at hl
    by_cases hc : c = '\n'
    · rw [if_pos hc] at hl
      rcases List.mem_cons.mp hl with rfl | hl2
      · intro hmem
        exact hacc '\n' (List.mem_reverse.mp (stripCR_subset hmem)) rfl
      · exact ih [] (by simp) l hl2
    · rw [if_neg hc] at hl
      refine ih (c :: acc) ?_ l hl
      intro c2 hc2
      rcases List.mem_cons.mp hc2 with rfl | hc3
      · exact hc
      · exact hacc c2 hc3

theorem linesOf_noNL (s : List Char) : ∀ l ∈ linesOf s, '\n' ∉ l :=
  linesAux_noNL s [] (by simp)

theorem Parser.new_noNL {ls : List (List Char)} (h : ∀ l ∈ ls, '\n' ∉ l) :
    (Parser.new ls).NoNL := by
  constructor
  · intro l hl
    unfold Parser.new at hl
    simp only at hl
    exact h l (List.mem_of_mem_head? hl)
  · intro l hl
    unfold Parser.new at hl
    simp only at hl
    exact h l (List.mem_of_mem_tail hl)

/-- Every tree the public entry point returns is wellformed. -/
theorem parse_wf {s : List Char} {v : Value} {p' : Parser}
    (h : parse s = .ok (v, p')) : Value.wf v = true ∧ p'.NoNL := by
  unfold parse at h
  exact (parse_inv_all _).1 _ _ _ (Parser.new_noNL (linesOf_noNL s)) h

/-! ## Newline-elided text of formatter output -/

/-- Keep every character except newline; the parser's cursor elides line
breaks, so this is the character sequence it traverses. -/
def notNL (c : Char) : Bool := !(c == '\n')

/-- Indentation as characters: 4 spaces per level. -/
def indentChars (d : Nat) : List Char := List.replicate (4 * d) ' '

theorem indent_filter (d : Nat) :
    (Formatter.indent ⟨d⟩).filter notNL = indentChars d := by
  rw [indent_eq]
  unfold indentChars
  rw [List.filter_replicate]
  simp [notNL]

theorem filter_notNL_eq_self {s : List Char} (h : '\n' ∉ s) : s.filter notNL = s := by
  induction s with
  | nil => rfl
  | cons c rest ih =>
    have hc : notNL c = true := by
      simp only [notNL, Bool.not_eq_true']
      exact beq_false_of_ne (fun he => h (he ▸ List.mem_cons_self c rest))
    rw [List.filter_cons_of_pos hc, ih (fun hm => h (List.mem_cons_of_mem c hm))]

theorem cleanStr_no_nl {s : List Char} (h : cleanStr s = true) : '\n' ∉ s := by
  intro hm
  simp only [cleanStr, List.all_eq_true] at h
  have := h '\n' hm
  simp at this

theorem cleanStr_no_quote {s : List Char} (h : cleanStr s = true) : '"' ∉ s := by
  intro hm
  simp only [cleanStr, List.all_eq_true] at h
  have := h '"' hm
  simp at this

theorem numWf_chars {n : List Char} (h : numWf n = true) :
    ∀ c ∈ n, c = '-' ∨ c.isDigit = true ∨ c = '.' := by
  cases n with
  | nil => simp [numWf] at h
  | cons c rest =>
    simp only [numWf, Bool.and_eq_true, Bool.or_eq_true, List.all_eq_true] at h
    intro a ha
    rcases List.mem_cons.mp ha with rfl | ha2
    · rcases h.1 with h1 | h1
      · exact Or.inl (by simpa using h1)
      · exact Or.inr (Or.inl h1)
    · have := h.2 a ha2
      simp only [validNumChar, Bool.or_eq_true] at this
      rcases this with h1 | h1
      · exact Or.inr (Or.inl h1)
      · exact Or.inr (Or.inr (by simpa using h1))

theorem numWf_no_nl {n : List Char} (h : numWf n = true) : '\n' ∉ n := by
  intro hm
  rcases numWf_chars h '\n' hm with h1 | h1 | h1
  · cases h1
  · simp [Char.isDigit] at h1
  · cases h1

/-! ## The stripped remaining text inside objects and arrays -/

/-- After the members of `ps` there remain, inside a nonempty object at
depth `d`, exactly these characters (newlines elided): each pair as
re-quoted key, colon-space and rendered value; a comma and the inner
indent between pairs; the closing indent and brace at the end. -/
def objSeq (d : Nat) (cs : List Char) : List Pair → List Char
  | [] => '\x7d' :: cs
  | pr :: rest =>
    '"' :: pr.1.val ++ '"' :: ':' :: ' ' :: (fmt (d + 1) pr.2).filter notNL ++
      (match rest with
       | [] => indentChars d ++ '\x7d' :: cs
       | _ :: _ => ',' :: (indentChars (d + 1) ++ objSeq d cs rest))

/-- The array analogue of `objSeq`. -/
def arrSeq (d : Nat) (cs : List Char) : List Value → List Char
  | [] => ']' :: cs
  | v :: rest =>
    (fmt (d + 1) v).filter notNL ++
      (match rest with
       | [] => indentChars d ++ ']' :: cs
       | _ :: _ => ',' :: (indentChars (d + 1) ++ arrSeq d cs rest))

theorem intercalate_single (s a : List Char) : List.intercalate s [a] = a := by
  simp [List.intercalate, List.intersperse]

theorem intercalate_cons2 (s a b : List Char) (t : List (List Char)) :
    List.intercalate s (a :: b :: t) = a ++ s ++ List.intercalate s (b :: t) := by
  simp [List.intercalate, List.intersperse]

theorem item_filter (d : Nat) (key : List Char) (t : List Char) (hk : '\n' ∉ key) :
    (Formatter.indent ⟨d⟩ ++ '"' :: key ++ '"' :: ':' :: ' ' :: t).filter notNL =
      indentChars d ++ '"' :: key ++ '"' :: ':' :: ' ' :: t.filter notNL := by
  simp only [List.filter_append, indent_filter, List.filter_cons,
    filter_notNL_eq_self hk, List.append_assoc, List.cons_append]
  norm_num [notNL]
  simp

theorem obj_body_eq (d : Nat) (cs : List Char) :
    ∀ ps : List Pair, ps ≠ [] → (∀ pr ∈ ps, '\n' ∉ pr.1.val) →
    (List.intercalate [',', '\n'] (ps.map fun pr =>
        Formatter.indent ⟨d + 1⟩ ++ '"' :: pr.1.val ++ '"' :: ':' :: ' ' ::
          fmt (d + 1) pr.2)).filter notNL ++
      (indentChars d ++ '\x7d' :: cs) =
    indentChars (d + 1) ++ objSeq d cs ps := by
  intro ps
  induction ps with
  | nil => intro h; exact absurd rfl h
  | cons pr rest ih =>
    intro _ hks
    cases rest with
    | nil =>
      simp only [List.map_cons, List.map_nil, intercalate_single]
      rw [item_filter (d + 1) pr.1.val _ (hks pr (List.mem_cons_self pr []))]
      simp [objSeq]
    | cons pr2 rest2 =>
      have ihr := ih (by simp) (fun q hq => hks q (List.mem_cons_of_mem pr hq))
      simp only [List.map_cons] at ihr ⊢
      rw [intercalate_cons2]
      rw [List.filter_append, List.filter_append,
        item_filter (d + 1) pr.1.val _ (hks pr (List.mem_cons_self pr _))]
      have hsep : ([',', '\n'] : List Char).filter notNL = [','] := by decide
      rw [hsep]
      rw [show objSeq d cs (pr :: pr2 :: rest2) =
        '"' :: pr.1.val ++ '"' :: ':' :: ' ' :: (fmt (d + 1) pr.2).filter notNL ++
          (',' :: (indentChars (d + 1) ++ objSeq d cs (pr2 :: rest2))) from rfl]
      rw [← ihr]
      simp [List.append_assoc]

theorem arr_body_eq (d : Nat) (cs : List Char) :
    ∀ vs : List Value, vs ≠ [] →
    (List.intercalate [',', '\n'] (vs.map fun v =>
        Formatter.indent ⟨d + 1⟩ ++ fmt (d + 1) v)).filter notNL ++
      (indentChars d ++ ']' :: cs) =
    indentChars (d + 1) ++ arrSeq d cs vs := by
  intro vs
  induction vs with
  | nil => intro h; exact absurd rfl h
  | cons v rest ih =>
    intro _
    cases rest with
    | nil =>
      simp only [List.map_cons, List.map_nil, intercalate_single]
      rw [List.filter_append, indent_filter]
      simp [arrSeq]
    | cons v2 rest2 =>
      have ihr := ih (by simp)
      simp only [List.map_cons] at ihr ⊢
      rw [intercalate_cons2]
      rw [List.filter_append, List.filter_append, List.filter_append, indent_filter]
      have hsep : ([',', '\n'] : List Char).filter notNL = [','] := by decide
      rw [hsep]
      rw [show arrSeq d cs (v :: v2 :: rest2) =
        (fmt (d + 1) v).filter notNL ++
          (',' :: (indentChars (d + 1) ++ arrSeq d cs (v2 :: rest2))) from rfl]
      rw [← ihr]
      simp [List.append_assoc]

/-! ## Character class facts and whitespace stripping -/

theorem isDigit_not_ws {c : Char} (h : c.isDigit = true) : isRustWhitespace c = false := by
  by_contra hw
  have hw2 : isRustWhitespace c = true := by
    cases hv : isRustWhitespace c
    · exact absurd hv hw
    · rfl
  simp only [isRustWhitespace, Bool.or_eq_true, beq_iff_eq, or_assoc] at hw2
  rcases hw2 with rfl|rfl|rfl|rfl|rfl|rfl|rfl|rfl|rfl|rfl|rfl|rfl|rfl|rfl|rfl|rfl|rfl|rfl|rfl|rfl|rfl|rfl|rfl|rfl|rfl <;> exact absurd h (by decide)

theorem isDigit_ne {c : Char} (h : c.isDigit = true) :
    c ≠ '\x7b' ∧ c ≠ '[' ∧ c ≠ '"' ∧ c ≠ '-' ∧ c ≠ '\x7d' ∧ c ≠ ']' ∧ c ≠ ',' := by
  refine ⟨?_, ?_, ?_, ?_, ?_, ?_, ?_⟩ <;> (intro he; subst he; exact absurd h (by decide))

theorem dropWhile_ws_append {w x : List Char}
    (h : ∀ c ∈ w, isRustWhitespace c = true) :
    (w ++ x).dropWhile isRustWhitespace = x.dropWhile isRustWhitespace := by
  induction w with
  | nil => rfl
  | cons c rest ih =>
    rw [List.cons_append, List.dropWhile_cons,
      if_pos (by exact h c (List.mem_cons_self c rest))]
    exact ih (fun a ha => h a (List.mem_cons_of_mem c ha))

theorem dropWhile_cons_neg {x : List Char} {c : Char} (h : isRustWhitespace c = false) :
    (c :: x).dropWhile isRustWhitespace = c :: x := by
  rw [List.dropWhile_cons, if_neg (by simp [h])]

theorem indentChars_ws (d : Nat) : ∀ c ∈ indentChars d, isRustWhitespace c = true := by
  intro c hc
  unfold indentChars at hc
  rw [List.eq_of_mem_replicate hc]
  decide

theorem dropWhile_indent_cons {d : Nat} {c : Char} {x : List Char}
    (h : isRustWhitespace c = false) :
    (indentChars d ++ c :: x).dropWhile isRustWhitespace = c :: x := by
  rw [dropWhile_ws_append (indentChars_ws d), dropWhile_cons_neg h]

theorem objSeq_nil_stop (d : Nat) (cs : List Char) :
    ∀ c, (indentChars d ++ '\x7d' :: cs).head? = some c → validNumChar c = false := by
  intro c hc
  cases d with
  | zero =>
    simp only [indentChars, Nat.mul_zero, List.replicate, List.nil_append,
      List.head?_cons, Option.some.injEq] at hc
    subst hc
    decide
  | succ k =>
    have hne : indentChars (k + 1) ≠ [] := by
      simp only [indentChars, ne_eq, List.replicate_eq_nil_iff]
      omega
    have hh : (indentChars (k + 1)).head? = some ' ' := by
      simp only [indentChars, List.head?_replicate]
      rw [if_neg (by omega)]
    rw [List.head?_append_of_ne_nil _ hne] at hc
    rw [hh] at hc
    cases hc
    decide

/-! ## Completeness: parsing formatted text -/

theorem objectLoop_fmt {N : Nat}
    (IH : ∀ u : Value, sizeOf u < N → Value.wf u = true →
      ∀ d p cs fuel w, p.Norm →
        (∀ c ∈ w, isRustWhitespace c = true) →
        p.stream = w ++ ((fmt d u).filter notNL ++ cs) →
        (∀ c, cs.head? = some c → validNumChar c = false) →
        3 * p.stream.length + 1 ≤ fuel →
        ∃ p', Parser.parseValue fuel p = .ok (u, p') ∧ p'.stream = cs ∧ p'.Norm) :
    ∀ (ps : List Pair) (d : Nat) (acc : List Pair) (p : Parser) (cs : List Char)
      (fuel : Nat) (w : List Char),
      ps ≠ [] →
      (∀ pr ∈ ps, sizeOf pr.2 < N ∧ Value.wf pr.2 = true ∧ cleanStr pr.1.val = true) →
      p.Norm → (∀ c ∈ w, isRustWhitespace c = true) →
      p.stream = w ++ objSeq d cs ps →
      3 * p.stream.length + 2 ≤ fuel →
      ∃ p', Parser.objectLoop fuel p acc = .ok (acc ++ ps, p') ∧
        p'.stream = '\x7d' :: cs ∧ p'.Norm := by
  intro ps
  induction ps with
  | nil => intro d acc p cs fuel w h; exact absurd rfl h
  | cons pr rest ih =>
    intro d acc p cs fuel w _ hwf hN hw hs hfuel
    obtain ⟨fl, rfl⟩ : ∃ fl, fuel = fl + 1 := ⟨fuel - 1, by omega⟩
    obtain ⟨hszpr, hwfpr, hkeypr⟩ := hwf pr (List.mem_cons_self pr rest)
    obtain ⟨X, hX⟩ : ∃ X, (match rest with
      | ([] : List Pair) => indentChars d ++ '\x7d' :: cs
      | _ :: _ => ',' :: (indentChars (d + 1) ++ objSeq d cs rest)) = X := ⟨_, rfl⟩
    have hseq : objSeq d cs (pr :: rest) =
        '"' :: (pr.1.val ++ '"' :: ':' :: ' ' :: ((fmt (d + 1) pr.2).filter notNL ++ X)) := by
      rw [← hX]
      simp [objSeq]
    have hlen0 : p.stream.length < fl + 1 := by omega
    have hsw1 := Parser.skipWhitespace_spec (fl + 1) hN hlen0
    have hs1 : (Parser.skipWhitespace (fl + 1) p).stream =
        '"' :: (pr.1.val ++ '"' :: ':' :: ' ' :: ((fmt (d + 1) pr.2).filter notNL ++ X)) := by
      rw [hsw1.1, hs, hseq, dropWhile_ws_append hw, dropWhile_cons_neg (by decide)]
    have hlen1 : (Parser.skipWhitespace (fl + 1) p).stream.length ≤ p.stream.length := by
      rw [hsw1.1]
      exact (List.dropWhile_sublist _).length_le
    have hlen1e : (Parser.skipWhitespace (fl + 1) p).stream.length =
        pr.1.val.length + ((fmt (d + 1) pr.2).filter notNL).length + X.length + 4 := by
      rw [hs1]
      simp [List.length_append]
      omega
    have hklen : pr.1.val.length < fl + 1 := by omega
    obtain ⟨p2, hpis, hs2, hN2⟩ := Parser.parseInnerString_spec (fl + 1)
      hsw1.2 hs1 (cleanStr_no_quote hkeypr) hklen
    have hkeyEq : Parser.parseStringKey (fl + 1) (Parser.skipWhitespace (fl + 1) p) =
        .ok (⟨pr.1.val⟩, p2) := by
      unfold Parser.parseStringKey
      rw [hpis]
    have hlen2 : p2.stream.length =
        ((fmt (d + 1) pr.2).filter notNL).length + X.length + 2 := by
      rw [hs2]
      simp [List.length_append]
    have hsw3 := Parser.skipWhitespace_spec (fl + 1) hN2 (by omega)
    have hs3 : (Parser.skipWhitespace (fl + 1) p2).stream =
        ':' :: ' ' :: ((fmt (d + 1) pr.2).filter notNL ++ X) := by
      rw [hsw3.1, hs2, dropWhile_cons_neg (by decide)]
    have hcur3 : (Parser.skipWhitespace (fl + 1) p2).getCurChar = some ':' := by
      rw [Parser.cur_eq_head hsw3.2, hs3]
      rfl
    have hconsEq : (Parser.skipWhitespace (fl + 1) p2).consumeChar ':' =
        .ok (Parser.skipWhitespace (fl + 1) p2).succ := Parser.consumeChar_ok hcur3
    have hs4 : (Parser.skipWhitespace (fl + 1) p2).succ.stream =
        ' ' :: ((fmt (d + 1) pr.2).filter notNL ++ X) := by
      rw [Parser.stream_succ hcur3, hs3]
      rfl
    have hN4 := Parser.norm_succ hcur3
    have hstop : ∀ c, X.head? = some c → validNumChar c = false := by
      cases rest with
      | nil =>
        rw [← hX]
        exact objSeq_nil_stop d cs
      | cons r1 rrest =>
        rw [← hX]
        intro c hc
        cases hc
        decide
    have hlen4 : (Parser.skipWhitespace (fl + 1) p2).succ.stream.length =
        ((fmt (d + 1) pr.2).filter notNL).length + X.length + 1 := by
      rw [hs4]
      simp [List.length_append]
    obtain ⟨p5, hpv, hs5, hN5⟩ := IH pr.2 hszpr hwfpr (d + 1)
      (Parser.skipWhitespace (fl + 1) p2).succ X fl [' '] hN4 (by intro c hc; rw [List.eq_of_mem_singleton hc]; decide)
      (by rw [hs4]; rfl) hstop (by omega)
    have hlen5 : p5.stream.length = X.length := by rw [hs5]
    have hsw6 := Parser.skipWhitespace_spec (fl + 1) hN5 (by omega)
    cases rest with
    | nil =>
      have hXv : X = indentChars d ++ '\x7d' :: cs := hX.symm
      have hs6 : (Parser.skipWhitespace (fl + 1) p5).stream = '\x7d' :: cs := by
        rw [hsw6.1, hs5, hXv, dropWhile_indent_cons (by decide)]
      have hcur6 : (Parser.skipWhitespace (fl + 1) p5).getCurChar = some '\x7d' := by
        rw [Parser.cur_eq_head hsw6.2, hs6]
        rfl
      refine ⟨Parser.skipWhitespace (fl + 1) p5, ?_, hs6, hsw6.2⟩
      simp only [Parser.objectLoop, hkeyEq, hconsEq, hpv, hcur6]
    | cons r1 rrest =>
      have hXv : X = ',' :: (indentChars (d + 1) ++ objSeq d cs (r1 :: rrest)) := hX.symm
      have hs6 : (Parser.skipWhitespace (fl + 1) p5).stream = X := by
        rw [hsw6.1, hs5, hXv, dropWhile_cons_neg (by decide), ← hXv]
      have hcur6 : (Parser.skipWhitespace (fl + 1) p5).getCurChar = some ',' := by
        rw [Parser.cur_eq_head hsw6.2, hs6, hXv]
        rfl
      have hs7 : (Parser.skipWhitespace (fl + 1) p5).succ.stream =
          indentChars (d + 1) ++ objSeq d cs (r1 :: rrest) := by
        rw [Parser.stream_succ hcur6, hs6, hXv]
        rfl
      have hlen7 : (Parser.skipWhitespace (fl + 1) p5).succ.stream.length + 1 = X.length := by
        rw [hs7, hXv]
        simp [List.length_append]
      obtain ⟨p', hloop, hsf, hNf⟩ := ih d (acc ++ [pr]) (Parser.skipWhitespace (fl + 1) p5).succ
        cs fl (indentChars (d + 1)) (by simp)
        (fun q hq => hwf q (List.mem_cons_of_mem pr hq))
        (Parser.norm_succ hcur6) (indentChars_ws (d + 1)) hs7 (by omega)
      refine ⟨p', ?_, hsf, hNf⟩
      simp only [Parser.objectLoop, hkeyEq, hconsEq, hpv, hcur6]
      show Parser.objectLoop fl (Parser.skipWhitespace (fl + 1) p5).succ (acc ++ [pr]) =
        Except.ok (acc ++ pr :: r1 :: rrest, p')
      have hac : acc ++ pr :: r1 :: rrest = acc ++ [pr] ++ r1 :: rrest := by simp
      rw [hac]
      exact hloop

theorem arrSeq_nil_stop (d : Nat) (cs : List Char) :
    ∀ c, (indentChars d ++ ']' :: cs).head? = some c → validNumChar c = false := by
  intro c hc
  cases d with
  | zero =>
    simp only [indentChars, Nat.mul_zero, List.replicate, List.nil_append,
      List.head?_cons, Option.some.injEq] at hc
    subst hc
    decide
  | succ k =>
    have hne : indentChars (k + 1) ≠ [] := by
      simp only [indentChars, ne_eq, List.replicate_eq_nil_iff]
      omega
    have hh : (indentChars (k + 1)).head? = some ' ' := by
      simp only [indentChars, List.head?_replicate]
      rw [if_neg (by omega)]
    rw [List.head?_append_of_ne_nil _ hne] at hc
    rw [hh] at hc
    cases hc
    decide

theorem takeWhile_append_stop {t cs : List Char}
    (ht : ∀ c ∈ t, validNumChar c = true)
    (hcs : ∀ c, cs.head? = some c → validNumChar c = false) :
    (t ++ cs).takeWhile validNumChar = t ∧ (t ++ cs).dropWhile validNumChar = cs := by
  induction t with
  | nil =>
    simp only [List.nil_append]
    cases cs with
    | nil => exact ⟨rfl, rfl⟩
    | cons c rest =>
      have := hcs c rfl
      rw [List.takeWhile_cons, List.dropWhile_cons]
      simp [this]
  | cons a t2 ih =>
    have ha := ht a (List.mem_cons_self a t2)
    have hrec := ih (fun c hc => ht c (List.mem_cons_of_mem a hc))
    rw [List.cons_append, List.takeWhile_cons, List.dropWhile_cons]
    simp [ha, hrec.1, hrec.2]

theorem Value.checkPairs_mem {f g k : List Char → Bool} : ∀ {l : List Pair},
    Value.checkPairs f g k l = true → ∀ pr ∈ l,
      g pr.1.val = true ∧ Value.checkLeaves f g k pr.2 = true := by
  intro l
  induction l with
  | nil => intro _ pr hpr; cases hpr
  | cons q rest ih =>
    intro h pr hpr
    simp only [Value.checkPairs, Bool.and_eq_true] at h
    rcases List.mem_cons.mp hpr with rfl | hm
    · exact ⟨h.1.1, h.1.2⟩
    · exact ih h.2 pr hm

theorem Value.checkList_mem {f g k : List Char → Bool} : ∀ {l : List Value},
    Value.checkList f g k l = true → ∀ v ∈ l, Value.checkLeaves f g k v = true := by
  intro l
  induction l with
  | nil => intro _ v hv; cases hv
  | cons q rest ih =>
    intro h v hv
    simp only [Value.checkList, Bool.and_eq_true] at h
    rcases List.mem_cons.mp hv with rfl | hm
    · exact h.1
    · exact ih h.2 v hm

theorem pair_val_size {pr : Pair} {ps : List Pair} (h : pr ∈ ps) :
    sizeOf pr.2 < sizeOf (Value.object ps) := by
  obtain ⟨k, pv⟩ := pr
  have h1 := List.sizeOf_lt_of_mem h
  have h2 := Prod.mk.sizeOf_spec k pv
  have h3 := Value.object.sizeOf_spec ps
  simp only at h1 ⊢
  omega

theorem elem_size {v : Value} {vs : List Value} (h : v ∈ vs) :
    sizeOf v < sizeOf (Value.array vs) := by
  have h1 := List.sizeOf_lt_of_mem h
  have h3 := Value.array.sizeOf_spec vs
  omega

theorem arrayLoop_fmt {N : Nat}
    (IH : ∀ u : Value, sizeOf u < N → Value.wf u = true →
      ∀ d p cs fuel w, p.Norm →
        (∀ c ∈ w, isRustWhitespace c = true) →
        p.stream = w ++ ((fmt d u).filter notNL ++ cs) →
        (∀ c, cs.head? = some c → validNumChar c = false) →
        3 * p.stream.length + 1 ≤ fuel →
        ∃ p', Parser.parseValue fuel p = .ok (u, p') ∧ p'.stream = cs ∧ p'.Norm) :
    ∀ (vs : List Value) (d : Nat) (acc : List Value) (p : Parser) (cs : List Char)
      (fuel : Nat) (w : List Char),
      vs ≠ [] →
      (∀ v ∈ vs, sizeOf v < N ∧ Value.wf v = true) →
      p.Norm → (∀ c ∈ w, isRustWhitespace c = true) →
      p.stream = w ++ arrSeq d cs vs →
      3 * p.stream.length + 2 ≤ fuel →
      ∃ p', Parser.arrayLoop fuel p acc = .ok (acc ++ vs, p') ∧
        p'.stream = ']' :: cs ∧ p'.Norm := by
  intro vs
  induction vs with
  | nil => intro d acc p cs fuel w h; exact absurd rfl h
  | cons v rest ih =>
    intro d acc p cs fuel w _ hwf hN hw hs hfuel
    obtain ⟨fl, rfl⟩ : ∃ fl, fuel = fl + 1 := ⟨fuel - 1, by omega⟩
    obtain ⟨hszv, hwfv⟩ := hwf v (List.mem_cons_self v rest)
    obtain ⟨X, hX⟩ : ∃ X, (match rest with
      | ([] : List Value) => indentChars d ++ ']' :: cs
      | _ :: _ => ',' :: (indentChars (d + 1) ++ arrSeq d cs rest)) = X := ⟨_, rfl⟩
    have hseq : arrSeq d cs (v :: rest) = (fmt (d + 1) v).filter notNL ++ X := by
      rw [← hX]
      simp [arrSeq]
    have hstop : ∀ c, X.head? = some c → validNumChar c = false := by
      cases rest with
      | nil =>
        rw [← hX]
        exact arrSeq_nil_stop d cs
      | cons r1 rrest =>
        rw [← hX]
        intro c hc
        cases hc
        decide
    obtain ⟨p1, hpv, hs1, hN1⟩ := IH v hszv hwfv (d + 1) p X fl w hN hw
      (by rw [hs, hseq]) hstop (by omega)
    have hlen1 : p1.stream.length = X.length := by rw [hs1]
    have hlen0 : X.length ≤ p.stream.length := by
      rw [hs, hseq]
      simp [List.length_append]
      omega
    have hsw2 := Parser.skipWhitespace_spec (fl + 1) hN1 (by omega)
    cases rest with
    | nil =>
      have hXv : X = indentChars d ++ ']' :: cs := hX.symm
      have hs2 : (Parser.skipWhitespace (fl + 1) p1).stream = ']' :: cs := by
        rw [hsw2.1, hs1, hXv, dropWhile_indent_cons (by decide)]
      have hcur2 : (Parser.skipWhitespace (fl + 1) p1).getCurChar = some ']' := by
        rw [Parser.cur_eq_head hsw2.2, hs2]
        rfl
      refine ⟨Parser.skipWhitespace (fl + 1) p1, ?_, hs2, hsw2.2⟩
      simp only [Parser.arrayLoop, hpv, hcur2]
    | cons r1 rrest =>
      have hXv : X = ',' :: (indentChars (d + 1) ++ arrSeq d cs (r1 :: rrest)) := hX.symm
      have hs2 : (Parser.skipWhitespace (fl + 1) p1).stream = X := by
        rw [hsw2.1, hs1, hXv, dropWhile_cons_neg (by decide), ← hXv]
      have hcur2 : (Parser.skipWhitespace (fl + 1) p1).getCurChar = some ',' := by
        rw [Parser.cur_eq_head hsw2.2, hs2, hXv]
        rfl
      have hs3 : (Parser.skipWhitespace (fl + 1) p1).succ.stream =
          indentChars (d + 1) ++ arrSeq d cs (r1 :: rrest) := by
        rw [Parser.stream_succ hcur2, hs2, hXv]
        rfl
      have hlen3 : (Parser.skipWhitespace (fl + 1) p1).succ.stream.length + 1 = X.length := by
        rw [hs3, hXv]
        simp [List.length_append]
      obtain ⟨p', hloop, hsf, hNf⟩ := ih d (acc ++ [v]) (Parser.skipWhitespace (fl + 1) p1).succ
        cs fl (indentChars (d + 1)) (by simp)
        (fun q hq => hwf q (List.mem_cons_of_mem v hq))
        (Parser.norm_succ hcur2) (indentChars_ws (d + 1)) hs3 (by omega)
      refine ⟨p', ?_, hsf, hNf⟩
      simp only [Parser.arrayLoop, hpv, hcur2]
      have hac : acc ++ v :: r1 :: rrest = acc ++ [v] ++ r1 :: rrest := by simp
      rw [hac]
      exact hloop

theorem fmt_object_stream (d : Nat) (cs : List Char) (ps : List Pair) (hne : ps ≠ [])
    (hks : ∀ pr ∈ ps, '\n' ∉ pr.1.val) :
    (fmt d (.object ps)).filter notNL ++ cs =
      '\x7b' :: (indentChars (d + 1) ++ objSeq d cs ps) := by
  rw [← obj_body_eq d cs ps hne hks, fmt_object d ps hne]
  simp [List.filter_append, List.filter_cons, indent_filter, notNL, List.append_assoc]

theorem fmt_array_stream (d : Nat) (cs : List Char) (vs : List Value) (hne : vs ≠ []) :
    (fmt d (.array vs)).filter notNL ++ cs =
      '[' :: (indentChars (d + 1) ++ arrSeq d cs vs) := by
  rw [← arr_body_eq d cs vs hne, fmt_array d vs hne]
  simp [List.filter_append, List.filter_cons, indent_filter, notNL, List.append_assoc]

theorem fmt_filter_head {d : Nat} : ∀ {v : Value}, Value.wf v = true →
    ∃ c tl, (fmt d v).filter notNL = c :: tl ∧ isRustWhitespace c = false ∧
      (c == ']') = false := by
  intro v hwf
  cases v with
  | string s =>
    refine ⟨'"', s.filter notNL ++ ['"'], ?_, by decide, by decide⟩
    rw [fmt_string]
    simp [List.filter_append, List.filter_cons, notNL]
  | number n =>
    have hnum : numWf n = true := hwf
    cases n with
    | nil => simp [numWf] at hnum
    | cons c t =>
      have hsplit : (c == '-' || c.isDigit) = true ∧ t.all validNumChar = true := by
        simpa [numWf, Bool.and_eq_true] using hnum
      have hor : c = '-' ∨ c.isDigit = true := by
        rcases (Bool.or_eq_true _ _).mp hsplit.1 with h1 | h1
        · exact Or.inl (by simpa using h1)
        · exact Or.inr h1
      have hprops : isRustWhitespace c = false ∧ (c == ']') = false := by
        rcases hor with rfl | h1
        · exact ⟨by decide, by decide⟩
        · refine ⟨isDigit_not_ws h1, ?_⟩
          have h2 := (isDigit_ne h1).2.2.2.2.2.1
          simp [h2]
      refine ⟨c, t, ?_, hprops.1, hprops.2⟩
      rw [fmt_number]
      exact filter_notNL_eq_self (numWf_no_nl hnum)
  | object pairs =>
    cases pairs with
    | nil => exact ⟨'\x7b', ['\x7d'], by rw [fmt_object_nil]; decide, by decide, by decide⟩
    | cons pr rest =>
      have hwfo : Value.checkPairs cleanStr cleanStr numWf (pr :: rest) = true := hwf
      have hks : ∀ q ∈ pr :: rest, '\n' ∉ q.1.val :=
        fun q hq => cleanStr_no_nl (Value.checkPairs_mem hwfo q hq).1
      have h := fmt_object_stream d [] (pr :: rest) (by simp) hks
      rw [List.append_nil] at h
      exact ⟨'\x7b', _, h, by decide, by decide⟩
  | array vs =>
    cases vs with
    | nil => exact ⟨'[', [']'], by rw [fmt_array_nil]; decide, by decide, by decide⟩
    | cons v0 rest =>
      have h := fmt_array_stream d [] (v0 :: rest) (by simp)
      rw [List.append_nil] at h
      exact ⟨'[', _, h, by decide, by decide⟩

theorem parse_fmt : ∀ (N : Nat) (v : Value), sizeOf v ≤ N → Value.wf v = true →
    ∀ (d : Nat) (p : Parser) (cs : List Char) (fuel : Nat) (w : List Char),
      p.Norm →
      (∀ c ∈ w, isRustWhitespace c = true) →
      p.stream = w ++ ((fmt d v).filter notNL ++ cs) →
      (∀ c, cs.head? = some c → validNumChar c = false) →
      3 * p.stream.length + 1 ≤ fuel →
      ∃ p', Parser.parseValue fuel p = .ok (v, p') ∧ p'.stream = cs ∧ p'.Norm := by
  intro N
  induction N using Nat.strong_induction_on with
  | _ N ihN =>
  intro v hsz hwf d p cs fuel w hN hw hs hstop hfuel
  have IH : ∀ u : Value, sizeOf u < N → Value.wf u = true →
      ∀ d p cs fuel w, p.Norm →
        (∀ c ∈ w, isRustWhitespace c = true) →
        p.stream = w ++ ((fmt d u).filter notNL ++ cs) →
        (∀ c, cs.head? = some c → validNumChar c = false) →
        3 * p.stream.length + 1 ≤ fuel →
        ∃ p', Parser.parseValue fuel p = .ok (u, p') ∧ p'.stream = cs ∧ p'.Norm :=
    fun u hu => ihN (sizeOf u) hu u (le_refl _)
  obtain ⟨fl, rfl⟩ : ∃ fl, fuel = fl + 1 := ⟨fuel - 1, by omega⟩
  have hsw := Parser.skipWhitespace_spec (fl + 1) hN (by omega)
  cases v with
  | string s =>
    have hcs : cleanStr s = true := hwf
    have hnl : '\n' ∉ s := cleanStr_no_nl hcs
    have hq : '"' ∉ s := cleanStr_no_quote hcs
    have hfil : (fmt d (.string s)).filter notNL = '"' :: s ++ ['"'] := by
      rw [fmt_string]
      simp [List.filter_append, List.filter_cons, notNL, filter_notNL_eq_self hnl]
    have hstream : p.stream = w ++ ('"' :: (s ++ '"' :: cs)) := by
      rw [hs, hfil]
      simp
    have hs1 : (Parser.skipWhitespace (fl + 1) p).stream = '"' :: (s ++ '"' :: cs) := by
      rw [hsw.1, hstream, dropWhile_ws_append hw, dropWhile_cons_neg (by decide)]
    have hcur1 : (Parser.skipWhitespace (fl + 1) p).getCurChar = some '"' := by
      rw [Parser.cur_eq_head hsw.2, hs1]
      rfl
    have hlenS : p.stream.length = w.length + (s.length + cs.length + 2) := by
      rw [hstream]
      simp [List.length_append]
      omega
    obtain ⟨p', hok, hsp, hNp⟩ := Parser.parseInnerString_spec (fl + 1)
      hsw.2 hs1 hq (by omega)
    refine ⟨p', ?_, hsp, hNp⟩
    simp only [Parser.parseValue, hcur1, Parser.parseStringValue, hok]
  | number n =>
    have hnum : numWf n = true := hwf
    obtain ⟨c, t, rfl⟩ : ∃ c t, n = c :: t := by
      cases n with
      | nil => simp [numWf] at hnum
      | cons c t => exact ⟨c, t, rfl⟩
    have hsplit : (c == '-' || c.isDigit) = true ∧ t.all validNumChar = true := by
      simpa [numWf, Bool.and_eq_true] using hnum
    have hor : c = '-' ∨ c.isDigit = true := by
      rcases (Bool.or_eq_true _ _).mp hsplit.1 with h1 | h1
      · exact Or.inl (by simpa using h1)
      · exact Or.inr h1
    have hcnws : isRustWhitespace c = false := by
      rcases hor with rfl | h1
      · decide
      · exact isDigit_not_ws h1
    have ht : ∀ x ∈ t, validNumChar x = true := by
      have h2 := hsplit.2
      simpa [List.all_eq_true] using h2
    have htw := takeWhile_append_stop ht hstop
    have hfil : (fmt d (.number (c :: t))).filter notNL = c :: t := by
      rw [fmt_number]
      exact filter_notNL_eq_self (numWf_no_nl hnum)
    have hstream : p.stream = w ++ (c :: (t ++ cs)) := by
      rw [hs, hfil]
      rfl
    have hs1 : (Parser.skipWhitespace (fl + 1) p).stream = c :: (t ++ cs) := by
      rw [hsw.1, hstream, dropWhile_ws_append hw, dropWhile_cons_neg hcnws]
    have hcur1 : (Parser.skipWhitespace (fl + 1) p).getCurChar = some c := by
      rw [Parser.cur_eq_head hsw.2, hs1]
      rfl
    have hlen1 : (Parser.skipWhitespace (fl + 1) p).stream.length ≤ p.stream.length := by
      rw [hsw.1]
      exact (List.dropWhile_sublist _).length_le
    obtain ⟨p', hpn, hps', hpN⟩ := Parser.parseNumber_spec (fl + 1) hsw.2 (by omega)
    have hfinal : Parser.parseNumber (fl + 1) (Parser.skipWhitespace (fl + 1) p) =
        .ok (.number (c :: t), p') ∧ p'.stream = cs := by
      by_cases hc : c = '-'
      · subst hc
        have hhd : (Parser.skipWhitespace (fl + 1) p).stream.head? = some '-' := by
          rw [hs1]
          rfl
        rw [if_pos hhd, if_pos hhd] at hpn
        rw [if_pos hhd] at hps'
        have htail : (Parser.skipWhitespace (fl + 1) p).stream.tail = t ++ cs := by
          rw [hs1]
          rfl
        rw [htail, htw.1] at hpn
        rw [htail, htw.2] at hps'
        exact ⟨by simpa using hpn, hps'⟩
      · have hhd : ¬ ((Parser.skipWhitespace (fl + 1) p).stream.head? = some '-') := by
          rw [hs1]
          intro hcontra
          simp only [List.head?_cons, Option.some.injEq] at hcontra
          exact hc hcontra
        have hdig : c.isDigit = true := by
          rcases hor with rfl | h1
          · exact absurd rfl hc
          · exact h1
        have hvc : validNumChar c = true := by
          simp [validNumChar, hdig]
        rw [if_neg hhd, if_neg hhd] at hpn
        rw [if_neg hhd] at hps'
        rw [hs1, List.takeWhile_cons_of_pos hvc, htw.1] at hpn
        rw [hs1, List.dropWhile_cons_of_pos hvc, htw.2] at hps'
        exact ⟨by simpa using hpn, hps'⟩
    refine ⟨p', ?_, hfinal.2, hpN⟩
    simp only [Parser.parseValue]
    rw [hcur1]
    split
    · rename_i heq
      cases heq
      rcases hor with h1 | h1
      · exact absurd h1 (by decide)
      · exact absurd h1 (by decide)
    · rename_i heq
      cases heq
      rcases hor with h1 | h1
      · exact absurd h1 (by decide)
      · exact absurd h1 (by decide)
    · rename_i heq
      cases heq
      rcases hor with h1 | h1
      · exact absurd h1 (by decide)
      · exact absurd h1 (by decide)
    · rename_i ch hne1 hne2 hne3 heq
      cases heq
      have hcond : (decide (c = '-') || c.isDigit) = true := by
        rcases hor with rfl | h1
        · simp
        · simp [h1]
      rw [if_pos hcond]
      exact hfinal.1
    · rename_i heq
      cases heq
  | object pairs =>
    cases pairs with
    | nil =>
      have hfil : (fmt d (.object [])).filter notNL = ['\x7b', '\x7d'] := by
        rw [fmt_object_nil]
        decide
      have hstream : p.stream = w ++ ('\x7b' :: '\x7d' :: cs) := by
        rw [hs, hfil]
        rfl
      have hs1 : (Parser.skipWhitespace (fl + 1) p).stream = '\x7b' :: '\x7d' :: cs := by
        rw [hsw.1, hstream, dropWhile_ws_append hw, dropWhile_cons_neg (by decide)]
      have hcur1 : (Parser.skipWhitespace (fl + 1) p).getCurChar = some '\x7b' := by
        rw [Parser.cur_eq_head hsw.2, hs1]
        rfl
      have hlenS : p.stream.length = w.length + (cs.length + 2) := by
        rw [hstream]
        simp [List.length_append]
      obtain ⟨flo, rfl⟩ : ∃ flo, fl = flo + 1 := ⟨fl - 1, by omega⟩
      have hN1 := Parser.norm_succ hcur1
      have hsucc1 : (Parser.skipWhitespace (flo + 1 + 1) p).succ.stream = '\x7d' :: cs := by
        rw [Parser.stream_succ hcur1, hs1]
        rfl
      have hsw2 := Parser.skipWhitespace_spec (flo + 1) hN1
        (by rw [hsucc1]; simp [List.length_cons]; omega)
      have hs2 : (Parser.skipWhitespace (flo + 1)
          (Parser.skipWhitespace (flo + 1 + 1) p).succ).stream = '\x7d' :: cs := by
        rw [hsw2.1, hsucc1, dropWhile_cons_neg (by decide)]
      have hcur2 : (Parser.skipWhitespace (flo + 1)
          (Parser.skipWhitespace (flo + 1 + 1) p).succ).getCurChar = some '\x7d' := by
        rw [Parser.cur_eq_head hsw2.2, hs2]
        rfl
      have hcis : (Parser.skipWhitespace (flo + 1)
          (Parser.skipWhitespace (flo + 1 + 1) p).succ).curCharIs '\x7d' = true := by
        simp [Parser.curCharIs, hcur2]
      refine ⟨(Parser.skipWhitespace (flo + 1)
          (Parser.skipWhitespace (flo + 1 + 1) p).succ).succ, ?_,
        by rw [Parser.stream_succ hcur2, hs2]; rfl, Parser.norm_succ hcur2⟩
      simp only [Parser.parseValue, hcur1]
      simp [Parser.parseObject, Parser.expectChar_ok hcur1, hcis]
    | cons pr ps =>
      have hwfo : Value.checkPairs cleanStr cleanStr numWf (pr :: ps) = true := hwf
      have hmem := Value.checkPairs_mem hwfo
      have hks : ∀ q ∈ pr :: ps, '\n' ∉ q.1.val := fun q hq => cleanStr_no_nl (hmem q hq).1
      have hfil := fmt_object_stream d cs (pr :: ps) (by simp) hks
      have hstream : p.stream =
          w ++ ('\x7b' :: (indentChars (d + 1) ++ objSeq d cs (pr :: ps))) := by
        rw [hs, hfil]
      have hs1 : (Parser.skipWhitespace (fl + 1) p).stream =
          '\x7b' :: (indentChars (d + 1) ++ objSeq d cs (pr :: ps)) := by
        rw [hsw.1, hstream, dropWhile_ws_append hw, dropWhile_cons_neg (by decide)]
      have hcur1 : (Parser.skipWhitespace (fl + 1) p).getCurChar = some '\x7b' := by
        rw [Parser.cur_eq_head hsw.2, hs1]
        rfl
      have hlen4 : (indentChars (d + 1) ++ objSeq d cs (pr :: ps)).length =
          (indentChars (d + 1)).length + (objSeq d cs (pr :: ps)).length :=
        List.length_append _ _
      have hlenS : p.stream.length =
          w.length + (1 + (indentChars (d + 1) ++ objSeq d cs (pr :: ps)).length) := by
        rw [hstream]
        simp [List.length_append]
        omega
      obtain ⟨flo, rfl⟩ : ∃ flo, fl = flo + 1 := ⟨fl - 1, by omega⟩
      have hN1 := Parser.norm_succ hcur1
      have hsucc1 : (Parser.skipWhitespace (flo + 1 + 1) p).succ.stream =
          indentChars (d + 1) ++ objSeq d cs (pr :: ps) := by
        rw [Parser.stream_succ hcur1, hs1]
        rfl
      have hsw2 := Parser.skipWhitespace_spec (flo + 1) hN1
        (by rw [hsucc1]; omega)
      obtain ⟨otl, hoseq⟩ : ∃ tl, objSeq d cs (pr :: ps) = '"' :: tl := ⟨_, rfl⟩
      have hs2 : (Parser.skipWhitespace (flo + 1)
          (Parser.skipWhitespace (flo + 1 + 1) p).succ).stream = objSeq d cs (pr :: ps) := by
        rw [hsw2.1, hsucc1, dropWhile_ws_append (indentChars_ws (d + 1)), hoseq,
          dropWhile_cons_neg (by decide), ← hoseq]
      have hcur2 : (Parser.skipWhitespace (flo + 1)
          (Parser.skipWhitespace (flo + 1 + 1) p).succ).getCurChar = some '"' := by
        rw [Parser.cur_eq_head hsw2.2, hs2, hoseq]
        rfl
      have hcis : (Parser.skipWhitespace (flo + 1)
          (Parser.skipWhitespace (flo + 1 + 1) p).succ).curCharIs '\x7d' = false := by
        simp [Parser.curCharIs, hcur2]
      have hIHwf : ∀ q ∈ pr :: ps,
          sizeOf q.2 < N ∧ Value.wf q.2 = true ∧ cleanStr q.1.val = true := by
        intro q hq
        exact ⟨lt_of_lt_of_le (pair_val_size hq) hsz, (hmem q hq).2, (hmem q hq).1⟩
      obtain ⟨p3, hloop, hs3, hN3⟩ := objectLoop_fmt IH (pr :: ps) d []
        (Parser.skipWhitespace (flo + 1) (Parser.skipWhitespace (flo + 1 + 1) p).succ)
        cs flo [] (by simp) hIHwf hsw2.2 (by simp) (by simpa using hs2)
        (by rw [hs2]; omega)
      have hcur3 : p3.getCurChar = some '\x7d' := by
        rw [Parser.cur_eq_head hN3, hs3]
        rfl
      refine ⟨p3.succ, ?_, by rw [Parser.stream_succ hcur3, hs3]; rfl, Parser.norm_succ hcur3⟩
      simp only [Parser.parseValue, hcur1]
      simp [Parser.parseObject, Parser.expectChar_ok hcur1, hcis, hloop,
        Parser.expectChar_ok hcur3]
  | array vs =>
    cases vs with
    | nil =>
      have hfil : (fmt d (.array [])).filter notNL = ['[', ']'] := by
        rw [fmt_array_nil]
        decide
      have hstream : p.stream = w ++ ('[' :: ']' :: cs) := by
        rw [hs, hfil]
        rfl
      have hs1 : (Parser.skipWhitespace (fl + 1) p).stream = '[' :: ']' :: cs := by
        rw [hsw.1, hstream, dropWhile_ws_append hw, dropWhile_cons_neg (by decide)]
      have hcur1 : (Parser.skipWhitespace (fl + 1) p).getCurChar = some '[' := by
        rw [Parser.cur_eq_head hsw.2, hs1]
        rfl
      have hlenS : p.stream.length = w.length + (cs.length + 2) := by
        rw [hstream]
        simp [List.length_append]
      obtain ⟨flo, rfl⟩ : ∃ flo, fl = flo + 1 := ⟨fl - 1, by omega⟩
      have hN1 := Parser.norm_succ hcur1
      have hsucc1 : (Parser.skipWhitespace (flo + 1 + 1) p).succ.stream = ']' :: cs := by
        rw [Parser.stream_succ hcur1, hs1]
        rfl
      have hsw2 := Parser.skipWhitespace_spec (flo + 1) hN1
        (by rw [hsucc1]; simp [List.length_cons]; omega)
      have hs2 : (Parser.skipWhitespace (flo + 1)
          (Parser.skipWhitespace (flo + 1 + 1) p).succ).stream = ']' :: cs := by
        rw [hsw2.1, hsucc1, dropWhile_cons_neg (by decide)]
      have hcur2 : (Parser.skipWhitespace (flo + 1)
          (Parser.skipWhitespace (flo + 1 + 1) p).succ).getCurChar = some ']' := by
        rw [Parser.cur_eq_head hsw2.2, hs2]
        rfl
      have hcis : (Parser.skipWhitespace (flo + 1)
          (Parser.skipWhitespace (flo + 1 + 1) p).succ).curCharIs ']' = true := by
        simp [Parser.curCharIs, hcur2]
      refine ⟨(Parser.skipWhitespace (flo + 1)
          (Parser.skipWhitespace (flo + 1 + 1) p).succ).succ, ?_,
        by rw [Parser.stream_succ hcur2, hs2]; rfl, Parser.norm_succ hcur2⟩
      simp only [Parser.parseValue, hcur1]
      simp [Parser.parseArray, Parser.consumeChar_ok hcur1, hcis]
    | cons v0 rest =>
      have hwfl : Value.checkList cleanStr cleanStr numWf (v0 :: rest) = true := hwf
      have hmemL := Value.checkList_mem hwfl
      have hwfv0 : Value.wf v0 = true := hmemL v0 (List.mem_cons_self v0 rest)
      have hfil := fmt_array_stream d cs (v0 :: rest) (by simp)
      have hstream : p.stream =
          w ++ ('[' :: (indentChars (d + 1) ++ arrSeq d cs (v0 :: rest))) := by
        rw [hs, hfil]
      have hs1 : (Parser.skipWhitespace (fl + 1) p).stream =
          '[' :: (indentChars (d + 1) ++ arrSeq d cs (v0 :: rest)) := by
        rw [hsw.1, hstream, dropWhile_ws_append hw, dropWhile_cons_neg (by decide)]
      have hcur1 : (Parser.skipWhitespace (fl + 1) p).getCurChar = some '[' := by
        rw [Parser.cur_eq_head hsw.2, hs1]
        rfl
      have hlen4 : (indentChars (d + 1) ++ arrSeq d cs (v0 :: rest)).length =
          (indentChars (d + 1)).length + (arrSeq d cs (v0 :: rest)).length :=
        List.length_append _ _
      have hlenS : p.stream.length =
          w.length + (1 + (indentChars (d + 1) ++ arrSeq d cs (v0 :: rest)).length) := by
        rw [hstream]
        simp [List.length_append]
        omega
      obtain ⟨flo, rfl⟩ : ∃ flo, fl = flo + 1 := ⟨fl - 1, by omega⟩
      have hN1 := Parser.norm_succ hcur1
      have hsucc1 : (Parser.skipWhitespace (flo + 1 + 1) p).succ.stream =
          indentChars (d + 1) ++ arrSeq d cs (v0 :: rest) := by
        rw [Parser.stream_succ hcur1, hs1]
        rfl
      have hsw2 := Parser.skipWhitespace_spec (flo + 1) hN1
        (by rw [hsucc1]; omega)
      obtain ⟨c0, tl0, hA, hnws0, hne0⟩ := fmt_filter_head (d := d + 1) hwfv0
      obtain ⟨M, hM⟩ : ∃ M, arrSeq d cs (v0 :: rest) =
          (fmt (d + 1) v0).filter notNL ++ M := ⟨_, rfl⟩
      have haseq : arrSeq d cs (v0 :: rest) = c0 :: (tl0 ++ M) := by
        rw [hM, hA, List.cons_append]
      have hs2 : (Parser.skipWhitespace (flo + 1)
          (Parser.skipWhitespace (flo + 1 + 1) p).succ).stream = arrSeq d cs (v0 :: rest) := by
        rw [hsw2.1, hsucc1, dropWhile_ws_append (indentChars_ws (d + 1)), haseq,
          dropWhile_cons_neg hnws0, ← haseq]
      have hcur2 : (Parser.skipWhitespace (flo + 1)
          (Parser.skipWhitespace (flo + 1 + 1) p).succ).getCurChar = some c0 := by
        rw [Parser.cur_eq_head hsw2.2, hs2, haseq]
        rfl
      have hcis : (Parser.skipWhitespace (flo + 1)
          (Parser.skipWhitespace (flo + 1 + 1) p).succ).curCharIs ']' = false := by
        simp only [Parser.curCharIs, hcur2]
        exact hne0
      have hIHwf : ∀ u ∈ v0 :: rest, sizeOf u < N ∧ Value.wf u = true := by
        intro u hu
        exact ⟨lt_of_lt_of_le (elem_size hu) hsz, hmemL u hu⟩
      obtain ⟨p3, hloop, hs3, hN3⟩ := arrayLoop_fmt IH (v0 :: rest) d []
        (Parser.skipWhitespace (flo + 1) (Parser.skipWhitespace (flo + 1 + 1) p).succ)
        cs flo [] (by simp) hIHwf hsw2.2 (by simp) (by simpa using hs2)
        (by rw [hs2]; omega)
      have hcur3 : p3.getCurChar = some ']' := by
        rw [Parser.cur_eq_head hN3, hs3]
        rfl
      refine ⟨p3.succ, ?_, by rw [Parser.stream_succ hcur3, hs3]; rfl, Parser.norm_succ hcur3⟩
      simp only [Parser.parseValue, hcur1]
      simp [Parser.parseArray, Parser.consumeChar_ok hcur1, hcis, hloop,
        Parser.consumeChar_ok hcur3]

/-! ## No carriage return immediately before a newline in formatter output -/

/-- Adjacent-pair relation: this pair is not a `\r\n` sequence. -/
def crlfRel (a b : Char) : Prop := ¬(a = '\r' ∧ b = '\n')

theorem crlfRel_left {a b : Char} (h : a ≠ '\r') : crlfRel a b := fun hc => h hc.1

theorem crlfRel_right {a b : Char} (h : b ≠ '\n') : crlfRel a b := fun hc => h hc.2

theorem crlfFree_of_no_nl {l : List Char} (h : '\n' ∉ l) : List.Chain' crlfRel l := by
  induction l with
  | nil => exact List.chain'_nil
  | cons a t ih =>
    rw [List.chain'_cons']
    refine ⟨?_, ih (fun hm => h (List.mem_cons_of_mem a hm))⟩
    intro x hx
    refine crlfRel_right (fun he => h ?_)
    rw [← he]
    exact List.mem_cons_of_mem a (List.mem_of_mem_head? hx)

theorem getLast?_mem_own : ∀ {l : List Char} {a : Char}, l.getLast? = some a → a ∈ l := by
  intro l
  induction l with
  | nil => intro a h; cases h
  | cons b t ih =>
    intro a h
    cases t with
    | nil =>
      simp only [List.getLast?_singleton, Option.some.injEq] at h
      rw [h]
      exact List.mem_singleton.mpr rfl
    | cons c r =>
      rw [List.getLast?_cons_cons] at h
      exact List.mem_cons_of_mem b (ih h)

theorem getLast?_append_ne {l1 l2 : List Char} (h : l2 ≠ []) :
    (l1 ++ l2).getLast? = l2.getLast? := List.getLast?_append_of_ne_nil l1 h

theorem getLast?_cons_ne {a : Char} {l : List Char} (h : l ≠ []) :
    (a :: l).getLast? = l.getLast? := by
  cases l with
  | nil => exact absurd rfl h
  | cons b t => exact List.getLast?_cons_cons

theorem intercalate_crlf : ∀ {items : List (List Char)}, items ≠ [] →
    (∀ it ∈ items, List.Chain' crlfRel it ∧ it ≠ [] ∧ it.getLast? ≠ some '\r') →
    List.Chain' crlfRel (List.intercalate [',', '\n'] items) ∧
    List.intercalate [',', '\n'] items ≠ [] ∧
    (List.intercalate [',', '\n'] items).getLast? ≠ some '\r' := by
  intro items
  induction items with
  | nil => intro h; exact absurd rfl h
  | cons a t ih =>
    intro _ hall
    obtain ⟨ha1, ha2, ha3⟩ := hall a (List.mem_cons_self a t)
    cases t with
    | nil =>
      rw [intercalate_single]
      exact ⟨ha1, ha2, ha3⟩
    | cons b r =>
      obtain ⟨h1, h2, h3⟩ := ih (by simp) (fun it hit => hall it (List.mem_cons_of_mem a hit))
      rw [intercalate_cons2, List.append_assoc]
      refine ⟨?_, by simp, ?_⟩
      · rw [List.chain'_append]
        refine ⟨ha1, ?_, ?_⟩
        · rw [List.chain'_append]
          refine ⟨?_, h1, ?_⟩
          · refine List.chain'_cons'.mpr ⟨?_, List.chain'_singleton _⟩
            intro y _
            exact crlfRel_left (by decide)
          · intro x hx y _
            have hxv : '\n' = x := by simpa using hx
            exact crlfRel_left (by rw [← hxv]; decide)
        · intro x _ y hy
          have hyv : ',' = y := by simpa using hy
          exact crlfRel_right (by rw [← hyv]; decide)
      · rw [getLast?_append_ne (by simp), getLast?_append_ne h2]
        exact h3

theorem fmt_crlf_all (n : Nat) : ∀ v : Value, sizeOf v ≤ n → Value.wf v = true → ∀ d : Nat,
    List.Chain' crlfRel (fmt d v) ∧ fmt d v ≠ [] ∧ (fmt d v).getLast? ≠ some '\r' := by
  induction n using Nat.strong_induction_on with
  | _ n ih =>
  intro v hsz hwf d
  cases v with
  | string s =>
    have hcs : cleanStr s = true := hwf
    have hnl : '\n' ∉ s := cleanStr_no_nl hcs
    rw [fmt_string]
    refine ⟨?_, by simp, ?_⟩
    · apply crlfFree_of_no_nl
      intro hm
      rcases List.mem_append.mp hm with hm1 | hm1
      · rcases List.mem_cons.mp hm1 with h | h
        · exact absurd h (by decide)
        · exact hnl h
      · rcases List.mem_singleton.mp hm1 with h
        exact absurd h (by decide)
    · rw [getLast?_append_ne (by simp)]
      decide
  | number nn =>
    have hnum : numWf nn = true := hwf
    have hchars := numWf_chars hnum
    have hnl : '\n' ∉ nn := numWf_no_nl hnum
    rw [fmt_number]
    refine ⟨crlfFree_of_no_nl hnl, ?_, ?_⟩
    · cases nn with
      | nil => simp [numWf] at hnum
      | cons c t => simp
    · intro hlast
      have hmem := getLast?_mem_own hlast
      rcases hchars '\r' hmem with h | h | h
      · exact absurd h (by decide)
      · exact absurd h (by decide)
      · exact absurd h (by decide)
  | object pairs =>
    cases pairs with
    | nil =>
      rw [fmt_object_nil]
      exact ⟨crlfFree_of_no_nl (by decide), by simp, by decide⟩
    | cons pr ps =>
      have hwfo : Value.checkPairs cleanStr cleanStr numWf (pr :: ps) = true := hwf
      have hmem := Value.checkPairs_mem hwfo
      rw [fmt_object d _ (by simp)]
      have hitems : ∀ it ∈ (pr :: ps).map (fun q => Formatter.indent ⟨d + 1⟩ ++
          '"' :: q.1.val ++ '"' :: ':' :: ' ' :: fmt (d + 1) q.2),
          List.Chain' crlfRel it ∧ it ≠ [] ∧ it.getLast? ≠ some '\r' := by
        intro it hit
        obtain ⟨q, hq, rfl⟩ := List.mem_map.mp hit
        obtain ⟨hkey, hval⟩ := hmem q hq
        obtain ⟨hv1, hv2, hv3⟩ :=
          ih (sizeOf q.2) (lt_of_lt_of_le (pair_val_size hq) hsz) q.2 (le_refl _) hval (d + 1)
        refine ⟨?_, by simp, ?_⟩
        · rw [List.chain'_append]
          refine ⟨?_, ?_, ?_⟩
          · rw [List.chain'_append]
            refine ⟨?_, ?_, ?_⟩
            · apply crlfFree_of_no_nl
              intro hm
              rw [indent_eq] at hm
              exact absurd (List.eq_of_mem_replicate hm) (by decide)
            · apply crlfFree_of_no_nl
              intro hm
              rcases List.mem_cons.mp hm with h | h
              · exact absurd h (by decide)
              · exact cleanStr_no_nl hkey h
            · intro x _ y hy
              have hyv : '"' = y := by simpa using hy
              exact crlfRel_right (by rw [← hyv]; decide)
          · refine List.chain'_cons'.mpr ⟨fun y _ => crlfRel_left (by decide), ?_⟩
            refine List.chain'_cons'.mpr ⟨fun y _ => crlfRel_left (by decide), ?_⟩
            refine List.chain'_cons'.mpr ⟨fun y _ => crlfRel_left (by decide), ?_⟩
            exact hv1
          · intro x _ y hy
            have hyv : '"' = y := by simpa using hy
            exact crlfRel_right (by rw [← hyv]; decide)
        · rw [getLast?_append_ne (by simp), getLast?_cons_ne (by simp),
            getLast?_cons_ne (by simp), getLast?_cons_ne hv2]
          exact hv3
      obtain ⟨hI1, hI2, hI3⟩ := intercalate_crlf (by simp) hitems
      rw [List.append_assoc]
      refine ⟨?_, by simp, ?_⟩
      · rw [List.chain'_append]
        refine ⟨?_, ?_, ?_⟩
        · refine List.chain'_cons'.mpr ⟨fun y _ => crlfRel_left (by decide), ?_⟩
          refine List.chain'_cons'.mpr ⟨fun y _ => crlfRel_left (by decide), ?_⟩
          exact hI1
        · rw [show ('\n' :: Formatter.indent ⟨d⟩ ++ ['\x7d'] :
              List Char) = '\n' :: (Formatter.indent ⟨d⟩ ++ ['\x7d']) from rfl]
          refine List.chain'_cons'.mpr ⟨fun y _ => crlfRel_left (by decide), ?_⟩
          rw [List.chain'_append]
          refine ⟨?_, List.chain'_singleton _, ?_⟩
          · apply crlfFree_of_no_nl
            intro hm
            rw [indent_eq] at hm
            exact absurd (List.eq_of_mem_replicate hm) (by decide)
          · intro x _ y hy
            have hyv : '\x7d' = y := by simpa using hy
            exact crlfRel_right (by rw [← hyv]; decide)
        · intro x hx y _
          rw [getLast?_cons_ne (by simp), getLast?_cons_ne hI2] at hx
          intro hc
          exact hI3 (hc.1 ▸ (Option.mem_def.mp hx))
      · rw [getLast?_append_ne (by simp), getLast?_append_ne (by simp)]
        decide
  | array vs =>
    cases vs with
    | nil =>
      rw [fmt_array_nil]
      exact ⟨crlfFree_of_no_nl (by decide), by simp, by decide⟩
    | cons v0 rest =>
      have hwfl : Value.checkList cleanStr cleanStr numWf (v0 :: rest) = true := hwf
      have hmemL := Value.checkList_mem hwfl
      rw [fmt_array d _ (by simp)]
      have hitems : ∀ it ∈ (v0 :: rest).map (fun u => Formatter.indent ⟨d + 1⟩ ++
          fmt (d + 1) u),
          List.Chain' crlfRel it ∧ it ≠ [] ∧ it.getLast? ≠ some '\r' := by
        intro it hit
        obtain ⟨u, hu, rfl⟩ := List.mem_map.mp hit
        obtain ⟨hv1, hv2, hv3⟩ :=
          ih (sizeOf u) (lt_of_lt_of_le (elem_size hu) hsz) u (le_refl _) (hmemL u hu) (d + 1)
        refine ⟨?_, by simp [hv2], ?_⟩
        · rw [List.chain'_append]
          refine ⟨?_, hv1, ?_⟩
          · apply crlfFree_of_no_nl
            intro hm
            rw [indent_eq] at hm
            exact absurd (List.eq_of_mem_replicate hm) (by decide)
          · intro x hx y _
            have hxm : x ∈ Formatter.indent ⟨d + 1⟩ := getLast?_mem_own (Option.mem_def.mp hx)
            rw [indent_eq] at hxm
            have hxv : x = ' ' := List.eq_of_mem_replicate hxm
            exact crlfRel_left (by rw [hxv]; decide)
        · rw [getLast?_append_ne hv2]
          exact hv3
      obtain ⟨hI1, hI2, hI3⟩ := intercalate_crlf (by simp) hitems
      rw [List.append_assoc]
      refine ⟨?_, by simp, ?_⟩
      · rw [List.chain'_append]
        refine ⟨?_, ?_, ?_⟩
        · refine List.chain'_cons'.mpr ⟨fun y _ => crlfRel_left (by decide), ?_⟩
          refine List.chain'_cons'.mpr ⟨fun y _ => crlfRel_left (by decide), ?_⟩
          exact hI1
        · rw [show ('\n' :: Formatter.indent ⟨d⟩ ++ [']'] :
              List Char) = '\n' :: (Formatter.indent ⟨d⟩ ++ [']']) from rfl]
          refine List.chain'_cons'.mpr ⟨fun y _ => crlfRel_left (by decide), ?_⟩
          rw [List.chain'_append]
          refine ⟨?_, List.chain'_singleton _, ?_⟩
          · apply crlfFree_of_no_nl
            intro hm
            rw [indent_eq] at hm
            exact absurd (List.eq_of_mem_replicate hm) (by decide)
          · intro x _ y hy
            have hyv : ']' = y := by simpa using hy
            exact crlfRel_right (by rw [← hyv]; decide)
        · intro x hx y _
          rw [getLast?_cons_ne (by simp), getLast?_cons_ne hI2] at hx
          intro hc
          exact hI3 (hc.1 ▸ (Option.mem_def.mp hx))
      · rw [getLast?_append_ne (by simp), getLast?_append_ne (by simp)]
        decide

theorem fmt_head {d : Nat} {v : Value} (hwf : Value.wf v = true) :
    ∃ c, (fmt d v).head? = some c ∧ c ≠ '\n' ∧ c ≠ '\r' := by
  cases v with
  | string s => exact ⟨'"', by rw [fmt_string]; rfl, by decide, by decide⟩
  | number nn =>
    have hnum : numWf nn = true := hwf
    cases nn with
    | nil => simp [numWf] at hnum
    | cons c t =>
      have hcc : c ≠ '\n' ∧ c ≠ '\r' := by
        rcases numWf_chars hnum c (List.mem_cons_self c t) with rfl | h | rfl
        · exact ⟨by decide, by decide⟩
        · exact ⟨fun he => by rw [he] at h; exact absurd h (by decide),
                 fun he => by rw [he] at h; exact absurd h (by decide)⟩
        · exact ⟨by decide, by decide⟩
      exact ⟨c, by rw [fmt_number]; rfl, hcc.1, hcc.2⟩
  | object pairs =>
    cases pairs with
    | nil => exact ⟨'\x7b', by rw [fmt_object_nil]; rfl, by decide, by decide⟩
    | cons pr ps =>
      exact ⟨'\x7b', by rw [fmt_object d _ (by simp)]; rfl, by decide, by decide⟩
  | array vs =>
    cases vs with
    | nil => exact ⟨'[', by rw [fmt_array_nil]; rfl, by decide, by decide⟩
    | cons v0 rest =>
      exact ⟨'[', by rw [fmt_array d _ (by simp)]; rfl, by decide, by decide⟩

/-! ## Flattening the line split of CRLF-free text -/

theorem stripCR_ne {l : List Char} (h : l.getLast? ≠ some '\r') : stripCR l = l := by
  unfold stripCR
  split
  · rename_i heq
    exact absurd heq h
  · rfl

theorem stripCR_head {l : List Char} {c : Char} (hh : l.head? = some c) (hc : c ≠ '\r') :
    ∃ t, stripCR l = c :: t := by
  unfold stripCR
  split
  · rename_i heq
    cases l with
    | nil => cases hh
    | cons a r =>
      have hac : a = c := by simpa using hh
      subst hac
      cases r with
      | nil =>
        have : a = '\r' := by simpa using heq
        exact absurd this hc
      | cons b r2 =>
        refine ⟨(b :: r2).dropLast, ?_⟩
        rfl
  · cases l with
    | nil => cases hh
    | cons a r =>
      have hac : a = c := by simpa using hh
      subst hac
      exact ⟨r, rfl⟩

theorem linesAux_first : ∀ (rest acc : List Char) (c0 : Char),
    acc.getLast? = some c0 → c0 ≠ '\r' →
    ∀ l, (linesAux acc rest).head? = some l → l ≠ [] := by
  intro rest
  induction rest with
  | nil =>
    intro acc c0 hg hc l hl
    have hne : acc ≠ [] := by
      intro he
      rw [he] at hg
      cases hg
    have hE : acc.isEmpty = false := by
      cases acc with
      | nil => exact absurd rfl hne
      | cons a t => rfl
    simp only [linesAux, hE, Bool.false_eq_true, if_false, List.head?_cons,
      Option.some.injEq] at hl
    rw [← hl]
    simp [hne]
  | cons c r ih =>
    intro acc c0 hg hc l hl
    have hne : acc ≠ [] := by
      intro he
      rw [he] at hg
      cases hg
    by_cases hcn : c = '\n'
    · subst hcn
      rw [show linesAux acc ('\n' :: r) = stripCR acc.reverse :: linesAux [] r from by
        simp [linesAux]] at hl
      simp only [List.head?_cons, Option.some.injEq] at hl
      obtain ⟨t, hst⟩ := stripCR_head (l := acc.reverse)
        (by rw [List.head?_reverse]; exact hg) hc
      rw [← hl, hst]
      simp
    · rw [show linesAux acc (c :: r) = linesAux (c :: acc) r from by
        simp [linesAux, hcn]] at hl
      exact ih (c :: acc) c0 (by rw [getLast?_cons_ne hne]; exact hg) hc l hl

theorem linesAux_flatten : ∀ (s acc : List Char),
    List.Chain' crlfRel s →
    (acc.head? = some '\r' → s.head? ≠ some '\n') →
    (linesAux acc s).flatten = acc.reverse ++ s.filter notNL := by
  intro s
  induction s with
  | nil =>
    intro acc _ _
    cases acc with
    | nil => simp [linesAux]
    | cons a t => simp [linesAux]
  | cons c r ih =>
    intro acc hch hcond
    by_cases hcn : c = '\n'
    · subst hcn
      have hco : acc.head? ≠ some '\r' := fun hr => hcond hr rfl
      have hstrip : stripCR acc.reverse = acc.reverse :=
        stripCR_ne (by rw [List.getLast?_reverse]; exact hco)
      have hrec := ih [] (List.chain'_cons'.mp hch).2 (by simp)
      rw [show linesAux acc ('\n' :: r) = stripCR acc.reverse :: linesAux [] r from by
        simp [linesAux]]
      rw [List.flatten_cons, hstrip, hrec]
      simp [List.filter_cons, notNL]
    · have hcnd2 : (c :: acc).head? = some '\r' → r.head? ≠ some '\n' := by
        intro hr
        have hcr : c = '\r' := by simpa using hr
        intro hrn
        have hrel := (List.chain'_cons'.mp hch).1 '\n' (by rw [hrn]; rfl)
        exact hrel ⟨hcr, rfl⟩
      have hrec := ih (c :: acc) (List.chain'_cons'.mp hch).2 hcnd2
      rw [show linesAux acc (c :: r) = linesAux (c :: acc) r from by
        simp [linesAux, hcn]]
      rw [hrec]
      simp [List.filter_cons, notNL, hcn]

theorem flatten_linesOf {s : List Char} (h : List.Chain' crlfRel s) :
    (linesOf s).flatten = s.filter notNL := by
  have := linesAux_flatten s [] h (by simp)
  simpa [linesOf] using this

/-! ## The freshly constructed parser -/

theorem Parser.new_stream (ls : List (List Char)) : (Parser.new ls).stream = ls.flatten := by
  cases ls with
  | nil => rfl
  | cons l rest => simp [Parser.new, Parser.stream]

theorem Parser.new_norm {ls : List (List Char)} (h : ∀ l, ls.head? = some l → l ≠ []) :
    (Parser.new ls).Norm := by
  constructor
  · intro l hl
    have hne := h l hl
    cases l with
    | nil => exact absurd rfl hne
    | cons a t =>
      show 0 < (a :: t).length
      simp
  · intro hl
    cases ls with
    | nil => rfl
    | cons l rest => simp [Parser.new] at hl

/-! ## The round trip at the public boundary -/

theorem parse_formatTop {v : Value} (hwf : Value.wf v = true) :
    ∃ p', parse (formatTop v) = .ok (v, p') ∧ p'.stream = [] ∧ p'.Norm := by
  have hchain := (fmt_crlf_all (sizeOf v) v (le_refl _) hwf 0).1
  have hflat := flatten_linesOf hchain
  obtain ⟨c, hhd, hc1, hc2⟩ := fmt_head (d := 0) hwf
  obtain ⟨trest, ht⟩ : ∃ r, fmt 0 v = c :: r := by
    cases hft : fmt 0 v with
    | nil => rw [hft] at hhd; cases hhd
    | cons a r =>
      rw [hft] at hhd
      simp only [List.head?_cons, Option.some.injEq] at hhd
      exact ⟨r, by rw [hhd]⟩
  have hfirst : ∀ l, (linesOf (fmt 0 v)).head? = some l → l ≠ [] := by
    intro l hl
    rw [ht] at hl
    rw [show linesOf (c :: trest) = linesAux [c] trest from by
      simp [linesOf, linesAux, hc1]] at hl
    exact linesAux_first trest [c] c (by simp) hc2 l hl
  have hN0 : (Parser.new (linesOf (fmt 0 v))).Norm := Parser.new_norm hfirst
  have hs0 : (Parser.new (linesOf (fmt 0 v))).stream = (fmt 0 v).filter notNL := by
    rw [Parser.new_stream, hflat]
  obtain ⟨p', hok, hps, hpN⟩ := parse_fmt (sizeOf v) v (le_refl _) hwf 0
    (Parser.new (linesOf (fmt 0 v))) [] (fuelFor (Parser.new (linesOf (fmt 0 v)))) []
    hN0 (by simp) (by simpa using hs0) (by intro x hx; simp at hx) (le_refl _)
  exact ⟨p', hok, hps, hpN⟩

/-! ## The claims -/

/-- C1: Round-trip stability: whenever `parse` succeeds on some input and
produces the tree `v`, running the driver pipeline on the formatted text
`formatTop v` succeeds and returns that exact text byte for byte, so
format-after-parse is the identity on already-canonical text. -/
theorem C1_roundtrip_stable {s : List Char} {v : Value} {q : Parser}
    (h : parse s = .ok (v, q)) :
    run (formatTop v) = .ok (formatTop v) := by
  obtain ⟨p', hok, _, _⟩ := parse_formatTop (parse_wf h).1
  simp [run, hok]

theorem C1_roundtrip_stable_witness :
    parse "\x7b\x7d".toList = .ok (Value.object [], ⟨0, [], none, 2⟩) ∧
    run (formatTop (Value.object [])) = .ok (formatTop (Value.object [])) :=
  ⟨rfl, C1_roundtrip_stable (s := "\x7b\x7d".toList) (q := ⟨0, [], none, 2⟩) rfl⟩

/-- C2: Parsing the nested example document and then formatting yields the
exact text of the spec, and in general a non-empty object is rendered as an
opening brace, a newline, one item per pair in stored order — the indent at
depth `d + 1`, the re-quoted key, colon and space, and the recursively
formatted value — items joined by comma-newline, then a newline, the
closing indent and the closing brace. -/
theorem C2_object_format :
    run "\x7b\"a\": \x7b\"bc\": 12345, \"def\": \"xyz\"\x7d, \"ijk\": 0\x7d".toList =
      .ok "\x7b\n    \"a\": \x7b\n        \"bc\": 12345,\n        \"def\": \"xyz\"\n    \x7d,\n    \"ijk\": 0\n\x7d".toList ∧
    ∀ (d : Nat) (pairs : List Pair), pairs ≠ [] →
      fmt d (.object pairs) = '\x7b' :: '\n' ::
        (List.intercalate [',', '\n'] (pairs.map fun pr =>
          Formatter.indent ⟨d + 1⟩ ++ '"' :: pr.1.val ++ '"' :: ':' :: ' ' ::
            fmt (d + 1) pr.2)) ++
        '\n' :: Formatter.indent ⟨d⟩ ++ ['\x7d'] :=
  ⟨rfl, fmt_object⟩

theorem C2_object_format_witness :
    ([(⟨['a']⟩, Value.number ['1'])] : List Pair) ≠ [] ∧
    fmt 0 (.object [(⟨['a']⟩, Value.number ['1'])]) =
      "\x7b\n    \"a\": 1\n\x7d".toList := by
  refine ⟨by simp, ?_⟩
  rw [C2_object_format.2 0 [(⟨['a']⟩, Value.number ['1'])] (by simp)]
  rfl

/-- C3 (amended): a successful `parse` does not consume its input to
end-of-input in general: it stops after the first complete value. Parsing
`123abc` succeeds with the literal `Number "123"` and leaves the unread
characters `abc` in the stream, with `a` as the current character. -/
theorem C3_trailing_input :
    parse "123abc".toList =
      .ok (.number ['1', '2', '3'], ⟨3, [], some "123abc".toList, 1⟩) ∧
    (⟨3, [], some "123abc".toList, 1⟩ : Parser).stream = "abc".toList ∧
    (⟨3, [], some "123abc".toList, 1⟩ : Parser).getCurChar = some 'a' :=
  ⟨rfl, rfl, rfl⟩

/-- C3 (counterexample): the claim that every successful parse leaves no
unread characters is false: `123abc` parses successfully, yet the final
state still holds unread input. -/
theorem C3_consumes_counterexample :
    ¬ ∀ (s : List Char) (v : Value) (p' : Parser),
        parse s = .ok (v, p') → p'.stream = [] := by
  intro hall
  have h := hall "123abc".toList (.number ['1', '2', '3'])
    ⟨3, [], some "123abc".toList, 1⟩ rfl
  exact absurd h (by decide)

/-- C4: number parsing consumes an optional leading minus and then the
maximal run of ASCII digits and dots, returning exactly that text as an
unvalidated literal; concretely `parse "123abc"` succeeds with
`Number "123"` leaving `abc` unconsumed, and a bare `-` yields the
minus-only literal `Number "-"` rather than failing. -/
theorem C4_number_literal :
    (∀ {fuel : Nat} {p : Parser}, p.Norm → p.stream.length < fuel →
      ∃ p', Parser.parseNumber fuel p =
          .ok (.number ((if p.stream.head? = some '-' then ['-'] else []) ++
            ((if p.stream.head? = some '-' then p.stream.tail else p.stream).takeWhile
              validNumChar)), p') ∧
        p'.stream = (if p.stream.head? = some '-' then p.stream.tail
          else p.stream).dropWhile validNumChar ∧ p'.Norm) ∧
    parse "123abc".toList =
      .ok (.number ['1', '2', '3'], ⟨3, [], some "123abc".toList, 1⟩) ∧
    (⟨3, [], some "123abc".toList, 1⟩ : Parser).stream = "abc".toList ∧
    parse "-".toList = .ok (.number ['-'], ⟨0, [], none, 2⟩) := by
  refine ⟨?_, rfl, rfl, rfl⟩
  intro fuel p hN hf
  exact Parser.parseNumber_spec fuel hN hf

theorem C4_number_literal_witness :
    (⟨0, [], some ['1', 'x'], 1⟩ : Parser).Norm ∧
    ∃ p', Parser.parseNumber 3 (⟨0, [], some ['1', 'x'], 1⟩ : Parser) =
        .ok (.number ((if (⟨0, [], some ['1', 'x'], 1⟩ : Parser).stream.head? = some '-'
            then ['-'] else []) ++
          ((if (⟨0, [], some ['1', 'x'], 1⟩ : Parser).stream.head? = some '-'
            then (⟨0, [], some ['1', 'x'], 1⟩ : Parser).stream.tail
            else (⟨0, [], some ['1', 'x'], 1⟩ : Parser).stream).takeWhile
              validNumChar)), p') ∧
      p'.stream = (if (⟨0, [], some ['1', 'x'], 1⟩ : Parser).stream.head? = some '-'
          then (⟨0, [], some ['1', 'x'], 1⟩ : Parser).stream.tail
          else (⟨0, [], some ['1', 'x'], 1⟩ : Parser).stream).dropWhile validNumChar ∧
      p'.Norm := by
  have hN : (⟨0, [], some ['1', 'x'], 1⟩ : Parser).Norm := by
    constructor
    · intro l hl
      injection hl with h
      rw [← h]
      decide
    · intro hl
      exact Option.noConfusion hl
  exact ⟨hN, C4_number_literal.1 hN (by decide)⟩

/-- C5: parsing the four-line document `\x7b` / `"a": 123,` / `"b"  45` /
`\x7d` fails with the missing-colon error positioned on line 3; and in
general `expect_char` failures carry the parser's current 1-based line
number, naming the expected token and, when a character is present, the
actual one. -/
theorem C5_error_line :
    parse "\x7b\n\"a\": 123,\n\"b\"  45\n\x7d".toList =
      .error ⟨"expected: `:`, found: `4`", 3⟩ ∧
    (∀ (p : Parser) (c : Char), p.getCurChar = none →
      p.expectChar c = .error ⟨"expected `" ++ c.toString ++ "`", p.line_number⟩) ∧
    (∀ (p : Parser) (c actual : Char), p.getCurChar = some actual → c ≠ actual →
      p.expectChar c = .error ⟨"expected: `" ++ c.toString ++ "`, found: `" ++
        actual.toString ++ "`", p.line_number⟩) := by
  refine ⟨rfl, ?_, ?_⟩
  · intro p c hcur
    simp [Parser.expectChar, hcur]
  · intro p c actual hcur hne
    simp only [Parser.expectChar, hcur]
    rw [if_neg hne]

theorem C5_error_line_witness :
    (⟨0, [], some ['4', '5'], 3⟩ : Parser).getCurChar = some '4' ∧
    (':' : Char) ≠ '4' ∧
    (⟨0, [], some ['4', '5'], 3⟩ : Parser).expectChar ':' =
      .error ⟨"expected: `:`, found: `4`", 3⟩ :=
  ⟨rfl, by decide, C5_error_line.2.2 ⟨0, [], some ['4', '5'], 3⟩ ':' '4' rfl (by decide)⟩

/-- C6: when end-of-input is reached after an opening quote with no closing
quote anywhere in the remaining stream, string parsing fails with a
positioned error and returns no partial value; and a backslash before a
quote is not an escape: parsing the text `"a\"b"` yields the string
content `a\` with `b"` left unread. -/
theorem C6_string_errors :
    (∀ {fuel : Nat} {p : Parser} {s : List Char}, p.Norm → p.stream = '"' :: s →
      '"' ∉ s → s.length < fuel →
      ∃ e, Parser.parseInnerString fuel p = .error e) ∧
    parse "\"a\\".toList = .error ⟨"expected `\"`", 2⟩ ∧
    parse "\"a\\\"b\"".toList = .ok (.string ['a', '\\'],
      ⟨4, [], some "\"a\\\"b\"".toList, 1⟩) ∧
    (⟨4, [], some "\"a\\\"b\"".toList, 1⟩ : Parser).stream = "b\"".toList := by
  refine ⟨?_, rfl, rfl, rfl⟩
  intro fuel p s hN hs hq hf
  exact Parser.parseInnerString_fail hN hs hq hf

theorem C6_string_errors_witness :
    (⟨0, [], some ['"', 'a'], 1⟩ : Parser).Norm ∧
    ∃ e, Parser.parseInnerString 2 (⟨0, [], some ['"', 'a'], 1⟩ : Parser) = .error e := by
  have hN : (⟨0, [], some ['"', 'a'], 1⟩ : Parser).Norm := by
    constructor
    · intro l hl
      injection hl with h
      rw [← h]
      decide
    · intro hl
      exact Option.noConfusion hl
  exact ⟨hN, C6_string_errors.1 hN rfl (by decide) (by decide)⟩

/-- C7 (amended): formatting is a total function of the tree — it is
defined, with no failure mode, for every `Value` — and on every tree the
parser can actually produce (`Value.wf`, whose number literals have numeric
shape) the formatted text never ends with a newline. The unrestricted
no-trailing-newline claim fails for the artificial literal
`Value.number ['\n']`. -/
theorem C7_no_trailing_newline {v : Value} (hwf : Value.wf v = true) :
    (formatTop v).getLast? ≠ some '\n' := by
  rw [formatTop_eq]
  cases v with
  | string s =>
    rw [fmt_string, getLast?_append_ne (by simp)]
    decide
  | number nn =>
    have hnum : numWf nn = true := hwf
    rw [fmt_number]
    intro hlast
    rcases numWf_chars hnum '\n' (getLast?_mem_own hlast) with h | h | h
    · exact absurd h (by decide)
    · exact absurd h (by decide)
    · exact absurd h (by decide)
  | object pairs =>
    cases pairs with
    | nil =>
      rw [fmt_object_nil]
      decide
    | cons pr ps =>
      rw [fmt_object 0 _ (by simp), getLast?_append_ne (by simp)]
      decide
  | array vs =>
    cases vs with
    | nil =>
      rw [fmt_array_nil]
      decide
    | cons v0 r =>
      rw [fmt_array 0 _ (by simp), getLast?_append_ne (by simp)]
      decide

theorem C7_no_trailing_newline_witness :
    Value.wf (Value.object []) = true ∧
    (formatTop (Value.object [])).getLast? ≠ some '\n' :=
  ⟨rfl, C7_no_trailing_newline rfl⟩

/-- C7 (counterexample): taken over all `Value` trees, the claim that the
formatted text never ends with a newline is false: the number literal whose
text is a lone newline formats to exactly that newline. -/
theorem C7_trailing_newline_counterexample :
    ¬ ∀ v : Value, (formatTop v).getLast? ≠ some '\n' := by
  intro hall
  exact hall (Value.number ['\n']) rfl

/-- C8: the formatter's only state is the depth counter and it is restored
by every call: `format` returns the formatter it was given; and the indent
text at depth `d` is exactly `d` repetitions of four spaces, that is
`4 * d` space characters. -/
theorem C8_depth_frame :
    (∀ (f : Formatter) (v : Value), (Formatter.format f v).2 = f) ∧
    (∀ d : Nat, Formatter.indent ⟨d⟩ = List.replicate (4 * d) ' ') :=
  ⟨Formatter.format_depth, indent_eq⟩

/-- C9: every string payload and key payload the parser produces is free of
double quotes and newlines; a literal spanning physical input lines drops
the line breaks, so the two-line input `"ab` / `cd"` parses to
`String "abcd"`. -/
theorem C9_clean_strings :
    (∀ {s : List Char} {v : Value} {p' : Parser}, parse s = .ok (v, p') →
      Value.checkLeaves cleanStr cleanStr (fun _ => true) v = true) ∧
    parse "\"ab\ncd\"".toList = .ok (.string ['a', 'b', 'c', 'd'], ⟨0, [], none, 3⟩) := by
  refine ⟨?_, rfl⟩
  intro s v p' h
  exact (Value.checkLeaves_mono (fun _ hx => hx) (fun _ hx => hx)
    (fun _ _ => rfl) (sizeOf v)).1 v (le_refl _) (parse_wf h).1

theorem C9_clean_strings_witness :
    parse "\"ab\ncd\"".toList = .ok (.string ['a', 'b', 'c', 'd'], ⟨0, [], none, 3⟩) ∧
    Value.checkLeaves cleanStr cleanStr (fun _ => true)
      (.string ['a', 'b', 'c', 'd']) = true :=
  ⟨rfl, C9_clean_strings.1 (s := "\"ab\ncd\"".toList) rfl⟩

/-- C10: every number literal in a tree returned by the public parse entry
point is non-empty and its first character is a minus or an ASCII digit:
`parse_value` dispatches to the number rule only on such a character, so
the empty literal the rule could produce in isolation never appears. -/
theorem C10_number_shape :
    ∀ {s : List Char} {v : Value} {p' : Parser}, parse s = .ok (v, p') →
      Value.checkLeaves (fun _ => true) (fun _ => true)
        (fun n => match n with
          | [] => false
          | c :: _ => c == '-' || c.isDigit) v = true := by
  intro s v p' h
  refine (Value.checkLeaves_mono (fun _ _ => rfl) (fun _ _ => rfl) ?_ (sizeOf v)).1
    v (le_refl _) (parse_wf h).1
  intro n hn
  cases n with
  | nil => simp [numWf] at hn
  | cons c t =>
    simp only [numWf, Bool.and_eq_true] at hn
    exact hn.1

theorem C10_number_shape_witness :
    parse "-".toList = .ok (.number ['-'], ⟨0, [], none, 2⟩) ∧
    Value.checkLeaves (fun _ => true) (fun _ => true)
      (fun n => match n with
        | [] => false
        | c :: _ => c == '-' || c.isDigit) (.number ['-']) = true :=
  ⟨rfl, C10_number_shape (s := "-".toList) rfl⟩

end JsonFmt
